import Mathlib

/-!
Verification of the `dirwatcher` polling/scanning core (`src/dirwatcher.py`).

The Python source is shallowly embedded as executable Lean functions:

* the module-level dictionaries `curr_dir_dict` / `prev_dir_dict` become an
  association list `Dict` threaded explicitly through the functions;
* file contents are a finite map from path to the list of lines that
  `f.readlines()` would produce; `open` failing with `FileNotFoundError` is
  modelled by the path being absent from that map;
* each `logger.…` call becomes an element of the `Event` list a cycle emits,
  and `time.sleep(n)` is recorded as the event `Event.slept n`;
* the `while not exit_program` loop of `watch_directory` becomes a
  fuel-indexed recursion; the cancellation flag, written asynchronously by
  `signal_handler`, is modelled as the function `flag : Nat → Bool` giving
  the value the loop observes at the head check of each iteration.

Definitions keep the Python names (`search_for_magic`, `filter_extension`,
`detect_removed_files`, `detect_added_files`, `alert_user`,
`watch_directory`, `signal_handler`).
-/

set_option autoImplicit false

namespace Dirwatcher

/-- Substring test on lists of characters: `needle` occurs contiguously in
`hay`.  This is the semantics of Python's `needle in hay` on strings. -/
def containsSub (needle : List Char) : List Char → Bool
  | [] => needle.isEmpty
  | c :: rest => needle.isPrefixOf (c :: rest) || containsSub needle rest

/-- Python's `magic_string in line` substring containment on strings. -/
def strContains (needle hay : String) : Bool :=
  containsSub needle.toList hay.toList

/-- Characters of a path after the last `/` (the basename, as
`os.path.splitext` computes it on POSIX paths). -/
def afterLastSlash (cs : List Char) : List Char :=
  cs.foldl (fun acc c => if c = '/' then [] else acc ++ [c]) []

/-- Suffix of `cs` starting at its last `'.'`, or `[]` if `cs` has no dot. -/
def tailFromLastDot : List Char → List Char
  | [] => []
  | c :: rest =>
    let t := tailFromLastDot rest
    if t = [] then (if c = '.' then c :: rest else []) else t

/-- The extension component `os.path.splitext(file)[1]`: the suffix of the
basename from its last dot, unless every character before that dot is a dot
(leading-dot files such as `.bashrc` have no extension). -/
def splitext_ext (file : String) : String :=
  let base := afterLastSlash file.toList
  let t := tailFromLastDot base
  let pre := base.take (base.length - t.length)
  if t = [] then "" else if pre.all (fun c => c = '.') then "" else String.mk t

/-- The extension test of `filter_extension` line 83:
`extension is None or os.path.splitext(file)[1] == extension`. -/
def passExt (extension : Option String) (file : String) : Bool :=
  match extension with
  | none => true
  | some e => splitext_ext file = e

/-- The global dictionary `curr_dir_dict` (and its copy `prev_dir_dict`):
filename to line number of the last line read. -/
abbrev Dict := List (String × Nat)

/-- Python dict lookup `d.get(f)` on the association-list model. -/
def dlookup (f : String) : Dict → Option Nat
  | [] => none
  | (k, v) :: rest => if k = f then some v else dlookup f rest

/-- Python dict assignment `d[f] = v`: update the first entry with key `f`
in place, or append a fresh entry if `f` is not a key. -/
def dictSet (d : Dict) (f : String) (v : Nat) : Dict :=
  match d with
  | [] => [(f, v)]
  | (k, w) :: rest => if k = f then (k, v) :: rest else (k, w) :: dictSet rest f v

/-- Python `del d[f]`: remove the entry with key `f`, or `none` when `f` is
not a key (a `KeyError`). -/
def delKey (d : Dict) (f : String) : Option Dict :=
  match d with
  | [] => none
  | (k, w) :: rest =>
    if k = f then some rest
    else (delKey rest f).map (fun r => (k, w) :: r)

/-- Number of entries of `d` whose key is `f` (a real Python dict always has
zero or one). -/
def keyCount (f : String) (d : Dict) : Nat :=
  d.countP (fun e => decide (e.1 = f))

/-- Keys of the dictionary are pairwise distinct — the invariant every real
Python dict satisfies, used as a hypothesis where counting matters. -/
def keysND (d : Dict) : Prop :=
  (d.map Prod.fst).Nodup

/-- Python membership `f in files` on the directory listing. -/
def memb (f : String) (files : List String) : Bool :=
  files.any (fun g => g = f)

/-- One log/sleep action performed during a cycle, in program order:
each `logger.…` call of the source is one constructor, and `time.sleep(n)`
is recorded as `slept n`. -/
inductive Event where
  /-- `logger.info` in `search_for_magic` lines 49-52: magic text found. -/
  | magicFound (file magic : String) (line : Nat)
  /-- `logger.info` in `detect_removed_files` lines 62-64. -/
  | removedFile (file : String)
  /-- `logger.info` in `detect_added_files` lines 72-74. -/
  | addedFile (file : String)
  /-- `logger.debug` in `watch_directory` lines 139-142. -/
  | debugDict (d : Dict)
  /-- `logger.error` in the `FileNotFoundError` handler, lines 150-153. -/
  | dirNotFound (path : String)
  /-- `logger.error` in the `MagicStringError` handler, lines 156-158. -/
  | errMagicMissing
  /-- `logger.error` in the `ExtensionError` handler, lines 161-164. -/
  | errExtension (e : String)
  /-- `logger.error` in the `NoDirectoryError` handler, lines 167-169. -/
  | errNoDirectory
  /-- `logger.error` in the catch-all `except Exception` handler, 172-175. -/
  | errUnexpected
  /-- `time.sleep(n)`. -/
  | slept (n : Nat)
  deriving DecidableEq, Repr

/-- The watch directory as seen by one cycle: `listing` is the list of
(joined, regular-file) paths `os.listdir` produces at line 131-133, and
`content` maps each path that can still be opened to its lines.  A path in
`listing` but absent from `content` models a file that vanished between the
listing and the `open` (`FileNotFoundError`). -/
structure FS where
  listing : List String
  content : List (String × List String)
  deriving DecidableEq, Repr

/-- Python `open(f).readlines()` against the `content` map; `none` is the
`FileNotFoundError` case. -/
def readFile (fsc : List (String × List String)) (f : String) : Option (List String) :=
  match fsc with
  | [] => none
  | (g, ls) :: rest => if g = f then some ls else readFile rest f

/-- The line-indexing scheme of `search_for_magic`: the source prepends an
empty string to `f.readlines()` so that line numbers are 1-based
(`contents = [""] + f.readlines()`); `lineAt contents i` is `contents[i]`. -/
def lineAt (contents : List String) (i : Nat) : String :=
  contents.getD i ""

/-- The `for index in range(start_line, len(contents))` loop of
`search_for_magic`, iterated with explicit fuel (the number of remaining
indices).  Returns `(w, m)` where `w` is the final value the loop stored in
`curr_dir_dict[filename]` (`none` when the loop body never ran) and `m` is
the matched line index, if any. -/
def searchFrom (magic : String) (contents : List String) : Nat → Nat → Option Nat × Option Nat
  | _, 0 => (none, none)
  | idx, fuel + 1 =>
    if strContains magic (lineAt contents idx) then (some idx, some idx)
    else
      match searchFrom magic contents (idx + 1) fuel with
      | (some j, m) => (some j, m)
      | (none, m) => (some idx, m)

/-- The whole `for` loop of `search_for_magic`, from `start_line` to
`len(contents) - 1`. -/
def search_loop (magic : String) (contents : List String) (start_line : Nat) :
    Option Nat × Option Nat :=
  searchFrom magic contents start_line (contents.length - start_line)

/-- `search_for_magic(filename, start_line, magic_string)` (lines 40-53):
opens the file (`none` = `FileNotFoundError` propagates to the caller),
prepends `""`, scans from `start_line`, stores the last index read into the
dictionary and logs the match.  Returns the dictionary write (if the loop
body ran) and the emitted log events. -/
def search_for_magic (fsc : List (String × List String)) (filename : String)
    (start_line : Nat) (magic_string : String) :
    Option (Option Nat × List Event) :=
  match readFile fsc filename with
  | none => none
  | some ls =>
    match search_loop magic_string ("" :: ls) start_line with
    | (w, some j) => some (w, [Event.magicFound filename magic_string j])
    | (w, none) => some (w, [])

/-- The resume point computed at line 84:
`start_line = curr_dir_dict.get(file, 0) + 1`. -/
def startLineFor (d : Dict) (f : String) : Nat :=
  (dlookup f d).getD 0 + 1

/-- `filter_extension(magic_string, extension, watch_files)` (lines 77-85),
threading the dictionary and event log.  An `Except.error` result is the
`FileNotFoundError` escaping from `search_for_magic`, carrying the
dictionary and events accumulated before the failing file. -/
def filter_extension (magic_string : String) (extension : Option String)
    (fsc : List (String × List String)) :
    List String → Dict → List Event → Except (Dict × List Event) (Dict × List Event)
  | [], d, ev => .ok (d, ev)
  | f :: rest, d, ev =>
    if passExt extension f then
      match search_for_magic fsc f (startLineFor d f) magic_string with
      | none => .error (d, ev)
      | some (w, evf) =>
        let d2 := match w with
          | none => d
          | some v => dictSet d f v
        filter_extension magic_string extension fsc rest d2 (ev ++ evf)
    else filter_extension magic_string extension fsc rest d ev

/-- `detect_removed_files(prev_dict, files)` (lines 56-64): for every key of
the previous dictionary missing from the current listing, delete its entry
from the current dictionary and log a removal.  `Except.error` is the
`KeyError` a failing `del` would raise, carrying the partial state. -/
def detect_removed_files :
    Dict → List String → Dict → List Event → Except (Dict × List Event) (Dict × List Event)
  | [], _, d, ev => .ok (d, ev)
  | (f, _) :: rest, files, d, ev =>
    if memb f files then detect_removed_files rest files d ev
    else
      match delKey d f with
      | none => .error (d, ev)
      | some d2 => detect_removed_files rest files d2 (ev ++ [Event.removedFile f])

/-- `detect_added_files(prev_dict, files)` (lines 67-74): log an addition
for every key of the current dictionary that is not a key of the previous
dictionary. -/
def detect_added_files (prev : Dict) : Dict → List Event → List Event
  | [], ev => ev
  | (f, _) :: rest, ev =>
    if (dlookup f prev).isNone then detect_added_files prev rest (ev ++ [Event.addedFile f])
    else detect_added_files prev rest ev

/-- Which exception `alert_user` raises, if any.  `indexErr` is the
`IndexError` that `extension[0]` raises on an empty extension string —
it is not one of the three declared configuration exceptions. -/
inductive AlertErr where
  | magicMissing
  | extErr
  | dirMissing
  | indexErr
  deriving DecidableEq, Repr

/-- `alert_user(path, magic_string, extension)` (lines 110-119).  The CLI
arguments are `Option String` (argparse yields `None` for an absent flag);
`not magic_string` and `not path` are true on both `None` and `""`. -/
def alert_user (path magic_string extension : Option String) : Option AlertErr :=
  if magic_string.getD "" = "" then some .magicMissing
  else
    match extension with
    | some e =>
      match e.toList with
      | [] => some .indexErr
      | c :: _ =>
        if c ≠ '.' then some .extErr
        else if path.getD "" = "" then some .dirMissing else none
    | none => if path.getD "" = "" then some .dirMissing else none

/-- Exit status of one iteration of the `while` loop of `watch_directory`:
which `except` arm (if any) the iteration ended in. -/
inductive Outcome where
  /-- the `try` block ran to the end (scan, diff, snapshot copy, sleep). -/
  | ok
  /-- the `except FileNotFoundError` arm: log, sleep 5, loop again. -/
  | fnf
  /-- the `except MagicStringError` arm: log, `break`. -/
  | cMagic
  /-- the `except ExtensionError` arm: log, `break`. -/
  | cExt
  /-- the `except NoDirectoryError` arm: log, `break`. -/
  | cDir
  /-- the catch-all `except Exception` arm: log, `break`. -/
  | other
  deriving DecidableEq, Repr

/-- The two module-level dictionaries. -/
structure LoopState where
  curr : Dict
  prev : Dict
  deriving DecidableEq, Repr

/-- Result of one iteration of the `while` loop body. -/
structure CycleResult where
  st : LoopState
  events : List Event
  outcome : Outcome
  deriving DecidableEq, Repr

/-- One iteration of the `while not exit_program` body of `watch_directory`
(lines 128-176).  `dir = none` models `os.listdir` raising
`FileNotFoundError` (directory absent); otherwise `dir = some fs` gives the
listing and the per-file contents seen by this cycle. -/
def watch_cycle (path magic_string extension : Option String) (interval : Nat)
    (dir : Option FS) (st : LoopState) : CycleResult :=
  match alert_user path magic_string extension with
  | some .magicMissing => ⟨st, [Event.errMagicMissing], Outcome.cMagic⟩
  | some .extErr => ⟨st, [Event.errExtension (extension.getD "")], Outcome.cExt⟩
  | some .dirMissing => ⟨st, [Event.errNoDirectory], Outcome.cDir⟩
  | some .indexErr => ⟨st, [Event.errUnexpected], Outcome.other⟩
  | none =>
    match dir with
    | none => ⟨st, [Event.dirNotFound (path.getD ""), Event.slept 5], Outcome.fnf⟩
    | some fs =>
      match filter_extension (magic_string.getD "") extension fs.content fs.listing
          st.curr [] with
      | .error (d, ev) =>
        ⟨⟨d, st.prev⟩, ev ++ [Event.dirNotFound (path.getD ""), Event.slept 5], Outcome.fnf⟩
      | .ok (d, ev) =>
        match detect_removed_files st.prev fs.listing d ev with
        | .error (d2, ev2) => ⟨⟨d2, st.prev⟩, ev2 ++ [Event.errUnexpected], Outcome.other⟩
        | .ok (d2, ev2) =>
          let ev3 := detect_added_files st.prev d2 ev2
          ⟨⟨d2, d2⟩, ev3 ++ [Event.debugDict d2, Event.slept interval], Outcome.ok⟩

/-- Whether an iteration ending in this outcome executes `break`. -/
def breaksLoop : Outcome → Bool
  | Outcome.ok => false
  | Outcome.fnf => false
  | _ => true

/-- Why a bounded run of the loop stopped. -/
inductive StopReason where
  /-- the fuel ran out with the loop still going. -/
  | fuelOut
  /-- `not exit_program` failed at the head of the loop. -/
  | cancelled
  /-- an iteration executed `break` after ending in this outcome. -/
  | broke (o : Outcome)
  deriving DecidableEq, Repr

/-- Result of a bounded run of the `while` loop. -/
structure RunResult where
  st : LoopState
  events : List Event
  cycles : Nat
  reason : StopReason
  deriving DecidableEq, Repr

/-- The `while not exit_program` loop of `watch_directory` (lines 122-176),
run for at most `fuel` iterations starting at iteration index `k`.
`env k` is the directory as iteration `k` sees it and `flag k` is the value
of `exit_program` the head check of iteration `k` observes. -/
def watch_directory (path magic_string extension : Option String) (interval : Nat)
    (env : Nat → Option FS) (flag : Nat → Bool) : Nat → Nat → LoopState → RunResult
  | _, 0, st => ⟨st, [], 0, StopReason.fuelOut⟩
  | k, fuel + 1, st =>
    if flag k then ⟨st, [], 0, StopReason.cancelled⟩
    else
      let c := watch_cycle path magic_string extension interval (env k) st
      if breaksLoop c.outcome then ⟨c.st, c.events, 1, StopReason.broke c.outcome⟩
      else
        let r := watch_directory path magic_string extension interval env flag (k + 1) fuel c.st
        ⟨r.st, c.events ++ r.events, r.cycles + 1, r.reason⟩

/-- `signal_handler(sig_num, frame)` (lines 190-194): its effect on the
`exit_program` flag — the flag is set to `True` whatever its prior value. -/
def signal_handler (exit_program : Bool) : Bool :=
  let _ := exit_program
  true

/-- Underlying `(dict, events)` pair of a `filter_extension` or
`detect_removed_files` result, whether the call completed or an exception
escaped part-way (the Python globals keep the mutations made so far). -/
def exFold (r : Except (Dict × List Event) (Dict × List Event)) : Dict × List Event :=
  match r with
  | .ok x => x
  | .error x => x

/-- Whether a call completed without raising. -/
def exOk (r : Except (Dict × List Event) (Dict × List Event)) : Bool :=
  match r with
  | .ok _ => true
  | .error _ => false

/-- The event is a magic-string match log line. -/
def isMagicEv : Event → Bool
  | Event.magicFound _ _ _ => true
  | _ => false

/-- The event is an addition log line. -/
def isAddedEv : Event → Bool
  | Event.addedFile _ => true
  | _ => false

/-- The event is a removal log line. -/
def isRemovedEv : Event → Bool
  | Event.removedFile _ => true
  | _ => false

/-- How many times the addition of file `f` was logged. -/
def countAddedFor (f : String) (evs : List Event) : Nat :=
  evs.countP (fun ev => decide (ev = Event.addedFile f))

/-- How many times the removal of file `f` was logged. -/
def countRemovedFor (f : String) (evs : List Event) : Nat :=
  evs.countP (fun ev => decide (ev = Event.removedFile f))

/-- The log event the `except` arm for each `alert_user` exception emits. -/
def cfgEvent (a : AlertErr) (extension : Option String) : Event :=
  match a with
  | .magicMissing => Event.errMagicMissing
  | .extErr => Event.errExtension (extension.getD "")
  | .dirMissing => Event.errNoDirectory
  | .indexErr => Event.errUnexpected

/-- The iteration outcome for each `alert_user` exception. -/
def cfgOutcome : AlertErr → Outcome
  | .magicMissing => Outcome.cMagic
  | .extErr => Outcome.cExt
  | .dirMissing => Outcome.cDir
  | .indexErr => Outcome.other

/-! ### Lemmas about the scan loop of `search_for_magic` -/

theorem searchFrom_fst_isSome (magic : String) (contents : List String) :
    ∀ fuel idx, (searchFrom magic contents idx (fuel + 1)).1.isSome := by
  intro fuel
  induction fuel with
  | zero =>
    intro idx
    by_cases hc : strContains magic (lineAt contents idx) <;> simp [searchFrom, hc]
  | succ n ih =>
    intro idx
    by_cases hc : strContains magic (lineAt contents idx)
    · simp [searchFrom, hc]
    · have h := ih (idx + 1)
      rcases hr : searchFrom magic contents (idx + 1) (n + 1) with ⟨w, m⟩
      rw [hr] at h
      cases w with
      | none => simp at h
      | some j =>
        rw [searchFrom, if_neg hc, hr]
        simp

theorem searchFrom_fst_ge (magic : String) (contents : List String) :
    ∀ fuel idx w, (searchFrom magic contents idx fuel).1 = some w → idx ≤ w := by
  intro fuel
  induction fuel with
  | zero => intro idx w h; simp [searchFrom] at h
  | succ n ih =>
    intro idx w h
    simp only [searchFrom] at h
    split at h
    · simp at h; omega
    · rcases hr : searchFrom magic contents (idx + 1) n with ⟨w2, m⟩
      rw [hr] at h
      cases w2 with
      | none => simp at h; omega
      | some j =>
        simp at h
        have := ih (idx + 1) j (by rw [hr])
        omega

theorem searchFrom_snd_ge (magic : String) (contents : List String) :
    ∀ fuel idx j, (searchFrom magic contents idx fuel).2 = some j → idx ≤ j := by
  intro fuel
  induction fuel with
  | zero => intro idx j h; simp [searchFrom] at h
  | succ n ih =>
    intro idx j h
    simp only [searchFrom] at h
    split at h
    · simp at h; omega
    · rcases hr : searchFrom magic contents (idx + 1) n with ⟨w2, m⟩
      rw [hr] at h
      have hm : m = some j → idx ≤ j := by
        intro hmj
        have := ih (idx + 1) j (by rw [hr, hmj])
        omega
      cases w2 with
      | none => simp at h; exact hm h
      | some _ => simp at h; exact hm h

theorem searchFrom_first (magic : String) (contents : List String) :
    ∀ fuel idx N, idx ≤ N → N < idx + fuel →
      strContains magic (lineAt contents N) = true →
      (∀ j, idx ≤ j → j < N → strContains magic (lineAt contents j) = false) →
      searchFrom magic contents idx fuel = (some N, some N) := by
  intro fuel
  induction fuel with
  | zero => intro idx N h1 h2; omega
  | succ n ih =>
    intro idx N h1 h2 hN hfirst
    rcases Nat.eq_or_lt_of_le h1 with heq | hlt
    · subst heq
      simp [searchFrom, hN]
    · have hstep := hfirst idx (Nat.le_refl idx) hlt
      have hrec := ih (idx + 1) N hlt (by omega) hN (fun j hj1 hj2 => hfirst j (by omega) hj2)
      simp [searchFrom, hstep, hrec]

theorem search_loop_fst_isSome (magic : String) (contents : List String) (s : Nat)
    (h : s < contents.length) : (search_loop magic contents s).1.isSome := by
  unfold search_loop
  have hf : contents.length - s = (contents.length - s - 1) + 1 := by omega
  rw [hf]
  exact searchFrom_fst_isSome magic contents _ s

theorem search_loop_fst_none (magic : String) (contents : List String) (s : Nat)
    (h : contents.length ≤ s) : search_loop magic contents s = (none, none) := by
  unfold search_loop
  have hf : contents.length - s = 0 := by omega
  rw [hf]
  simp [searchFrom]

theorem search_loop_first (magic : String) (contents : List String) (s N : Nat)
    (h1 : s ≤ N) (h2 : N < contents.length)
    (hN : strContains magic (lineAt contents N) = true)
    (hfirst : ∀ j, s ≤ j → j < N → strContains magic (lineAt contents j) = false) :
    search_loop magic contents s = (some N, some N) :=
  searchFrom_first magic contents _ s N h1 (by omega) hN hfirst

theorem search_loop_fst_ge (magic : String) (contents : List String) (s w : Nat)
    (h : (search_loop magic contents s).1 = some w) : s ≤ w :=
  searchFrom_fst_ge magic contents _ s w h

theorem search_loop_snd_ge (magic : String) (contents : List String) (s j : Nat)
    (h : (search_loop magic contents s).2 = some j) : s ≤ j :=
  searchFrom_snd_ge magic contents _ s j h

/-! ### Lemmas about the dictionary model -/

theorem dlookup_dictSet_self (d : Dict) (f : String) (v : Nat) :
    dlookup f (dictSet d f v) = some v := by
  induction d with
  | nil => simp [dictSet, dlookup]
  | cons e rest ih =>
    rcases e with ⟨k, w⟩
    by_cases h : k = f
    · subst h; simp [dictSet, dlookup]
    · simp [dictSet, dlookup, h, ih]

theorem dlookup_dictSet_ne (d : Dict) (f g : String) (v : Nat) (h : g ≠ f) :
    dlookup g (dictSet d f v) = dlookup g d := by
  induction d with
  | nil => simp [dictSet, dlookup, Ne.symm h]
  | cons e rest ih =>
    rcases e with ⟨k, w⟩
    by_cases hk : k = f
    · subst hk
      simp [dictSet, dlookup, Ne.symm h]
    · simp only [dictSet, if_neg hk]
      by_cases hg : k = g
      · subst hg; simp [dlookup]
      · simp [dlookup, hg, ih]

theorem keyCount_dictSet_ne (d : Dict) (f g : String) (v : Nat) (h : g ≠ f) :
    keyCount g (dictSet d f v) = keyCount g d := by
  induction d with
  | nil => simp [dictSet, keyCount, Ne.symm h]
  | cons e rest ih =>
    rcases e with ⟨k, w⟩
    by_cases hk : k = f
    · subst hk; simp [dictSet, keyCount, List.countP_cons]
    · simp only [dictSet, if_neg hk]
      simp only [keyCount, List.countP_cons] at ih ⊢
      omega

theorem keyCount_zero_iff (d : Dict) (f : String) :
    keyCount f d = 0 ↔ dlookup f d = none := by
  induction d with
  | nil => simp [keyCount, dlookup]
  | cons e rest ih =>
    rcases e with ⟨k, w⟩
    simp only [keyCount, List.countP_cons, dlookup] at ih ⊢
    by_cases hk : k = f
    · subst hk; simp
    · simp [hk, ih]

theorem keyCount_dictSet_fresh (d : Dict) (f : String) (v : Nat)
    (h : keyCount f d = 0) : keyCount f (dictSet d f v) = 1 := by
  induction d with
  | nil => simp [dictSet, keyCount, List.countP_cons]
  | cons e rest ih =>
    rcases e with ⟨k, w⟩
    by_cases hk : k = f
    · subst hk
      simp [keyCount, List.countP_cons] at h
    · simp only [dictSet, if_neg hk]
      simp only [keyCount, List.countP_cons] at h ⊢
      have hc : decide ((k, w).1 = f) = false := by simp [hk]
      rw [hc] at h ⊢
      simp only [Bool.false_eq_true, if_false, Nat.add_zero] at h ⊢
      exact ih h

theorem delKey_isSome_iff (d : Dict) (f : String) :
    (delKey d f).isSome ↔ (dlookup f d).isSome := by
  induction d with
  | nil => simp [delKey, dlookup]
  | cons e rest ih =>
    rcases e with ⟨k, w⟩
    by_cases hk : k = f
    · simp [delKey, dlookup, hk]
    · simp [delKey, dlookup, hk, ih]

theorem delKey_lookup_ne (d : Dict) (f g : String) (d2 : Dict)
    (hdel : delKey d f = some d2) (h : g ≠ f) : dlookup g d2 = dlookup g d := by
  induction d generalizing d2 with
  | nil => simp [delKey] at hdel
  | cons e rest ih =>
    rcases e with ⟨k, w⟩
    by_cases hk : k = f
    · subst hk
      have hd : rest = d2 := by simpa [delKey] using hdel
      subst hd
      simp [dlookup, Ne.symm h]
    · simp only [delKey, if_neg hk] at hdel
      rcases hr : delKey rest f with _ | r
      · rw [hr] at hdel; simp at hdel
      · rw [hr] at hdel
        simp only [Option.map_some', Option.some.injEq] at hdel
        subst hdel
        by_cases hg : k = g
        · simp [dlookup, hg]
        · simp [dlookup, hg, ih r hr]

theorem delKey_keyCount_ne (d : Dict) (f g : String) (d2 : Dict)
    (hdel : delKey d f = some d2) (h : g ≠ f) : keyCount g d2 = keyCount g d := by
  induction d generalizing d2 with
  | nil => simp [delKey] at hdel
  | cons e rest ih =>
    rcases e with ⟨k, w⟩
    by_cases hk : k = f
    · subst hk
      have hd : rest = d2 := by simpa [delKey] using hdel
      subst hd
      simp [keyCount, List.countP_cons, Ne.symm h]
    · simp only [delKey, if_neg hk] at hdel
      rcases hr : delKey rest f with _ | r
      · rw [hr] at hdel; simp at hdel
      · rw [hr] at hdel
        simp only [Option.map_some', Option.some.injEq] at hdel
        subst hdel
        simp only [keyCount, List.countP_cons] at ih ⊢
        have := ih r hr
        omega

theorem delKey_keyCount_self (d : Dict) (f : String) (d2 : Dict)
    (hdel : delKey d f = some d2) : keyCount f d2 + 1 = keyCount f d := by
  induction d generalizing d2 with
  | nil => simp [delKey] at hdel
  | cons e rest ih =>
    rcases e with ⟨k, w⟩
    by_cases hk : k = f
    · subst hk
      have hd : rest = d2 := by simpa [delKey] using hdel
      subst hd
      simp [keyCount, List.countP_cons]
    · simp only [delKey, if_neg hk] at hdel
      rcases hr : delKey rest f with _ | r
      · rw [hr] at hdel; simp at hdel
      · rw [hr] at hdel
        simp only [Option.map_some', Option.some.injEq] at hdel
        subst hdel
        simp only [keyCount, List.countP_cons, hk] at ih ⊢
        have := ih r hr
        omega

theorem dlookup_isSome_mem (d : Dict) (f : String) (h : (dlookup f d).isSome) :
    f ∈ d.map Prod.fst := by
  induction d with
  | nil => simp [dlookup] at h
  | cons e rest ih =>
    rcases e with ⟨k, w⟩
    simp only [dlookup] at h
    by_cases hk : k = f
    · simp [hk]
    · simp only [if_neg hk] at h
      simp [List.map_cons, ih h]

theorem keysND_keyCount_le_one (d : Dict) (h : keysND d) (f : String) :
    keyCount f d ≤ 1 := by
  induction d with
  | nil => simp [keyCount]
  | cons e rest ih =>
    rcases e with ⟨k, w⟩
    simp only [keysND, List.map_cons, List.nodup_cons] at h
    simp only [keyCount, List.countP_cons]
    by_cases hk : k = f
    · subst hk
      have h0 : keyCount k rest = 0 := by
        rw [keyCount_zero_iff]
        rcases hl : dlookup k rest with _ | v
        · rfl
        · exact absurd (dlookup_isSome_mem rest k (by simp [hl])) h.1
      simp only [keyCount] at h0
      simp [h0]
    · have := ih h.2
      simp only [keyCount] at this
      simp [hk, this]

theorem mem_keys_iff_lookup (d : Dict) (f : String) :
    f ∈ d.map Prod.fst ↔ (dlookup f d).isSome := by
  constructor
  · intro h
    induction d with
    | nil => simp at h
    | cons e rest ih =>
      rcases e with ⟨k, w⟩
      simp only [List.map_cons, List.mem_cons] at h
      by_cases hk : k = f
      · simp [dlookup, hk]
      · rcases h with h | h
        · exact absurd h.symm hk
        · simp [dlookup, hk, ih h]
  · exact dlookup_isSome_mem d f

theorem keysND_dictSet (d : Dict) (f : String) (v : Nat) (h : keysND d) :
    keysND (dictSet d f v) := by
  induction d with
  | nil => simp [dictSet, keysND]
  | cons e rest ih =>
    rcases e with ⟨k, w⟩
    simp only [keysND, List.map_cons, List.nodup_cons] at h
    by_cases hk : k = f
    · subst hk
      simp only [dictSet, if_pos rfl]
      simpa [keysND] using h
    · simp only [dictSet, if_neg hk]
      simp only [keysND, List.map_cons, List.nodup_cons]
      refine ⟨?_, ih h.2⟩
      intro hmem
      rw [mem_keys_iff_lookup] at hmem
      rw [dlookup_dictSet_ne rest f k v hk] at hmem
      exact h.1 ((mem_keys_iff_lookup rest k).mpr hmem)

/-! ### Lemmas about `search_for_magic` as a single call -/

theorem search_for_magic_eq_of_read (fsc : List (String × List String)) (f : String)
    (s : Nat) (m : String) (ls : List String) (h : readFile fsc f = some ls) :
    search_for_magic fsc f s m =
      some ((search_loop m ("" :: ls) s).1,
        match (search_loop m ("" :: ls) s).2 with
        | some j => [Event.magicFound f m j]
        | none => []) := by
  unfold search_for_magic
  rw [h]
  rcases hsl : search_loop m ("" :: ls) s with ⟨w, mo⟩
  cases mo <;> simp [hsl]

theorem memb_iff (f : String) (l : List String) : memb f l = true ↔ f ∈ l := by
  induction l with
  | nil => simp [memb]
  | cons g rest ih =>
    simp only [memb, List.any_cons, Bool.or_eq_true, decide_eq_true_eq] at ih ⊢
    rw [List.mem_cons]
    constructor
    · rintro (h | h)
      · exact Or.inl h.symm
      · exact Or.inr (ih.mp h)
    · rintro (h | h)
      · exact Or.inl h.symm
      · exact Or.inr (ih.mpr h)

theorem search_for_magic_none_iff (fsc : List (String × List String)) (f : String)
    (s : Nat) (m : String) :
    search_for_magic fsc f s m = none ↔ readFile fsc f = none := by
  rcases hr : readFile fsc f with _ | ls
  · unfold search_for_magic
    rw [hr]
    simp
  · rw [search_for_magic_eq_of_read fsc f s m ls hr]
    simp [hr]

theorem search_for_magic_write_ge (fsc : List (String × List String)) (f : String)
    (s : Nat) (m : String) (r : Option Nat × List Event)
    (h : search_for_magic fsc f s m = some r) (v : Nat) (hv : r.1 = some v) : s ≤ v := by
  rcases hr : readFile fsc f with _ | ls
  · rw [(search_for_magic_none_iff fsc f s m).mpr hr] at h
    exact absurd h (by simp)
  · rw [search_for_magic_eq_of_read fsc f s m ls hr] at h
    simp only [Option.some.injEq] at h
    rw [← h] at hv
    exact search_loop_fst_ge m ("" :: ls) s v hv

theorem search_for_magic_events_magic (fsc : List (String × List String)) (f : String)
    (s : Nat) (m : String) (r : Option Nat × List Event)
    (h : search_for_magic fsc f s m = some r) : ∀ x ∈ r.2, isMagicEv x = true := by
  rcases hr : readFile fsc f with _ | ls
  · rw [(search_for_magic_none_iff fsc f s m).mpr hr] at h
    exact absurd h (by simp)
  · rw [search_for_magic_eq_of_read fsc f s m ls hr] at h
    simp only [Option.some.injEq] at h
    subst h
    intro x hx
    rcases hsl : (search_loop m ("" :: ls) s).2 with _ | j <;> rw [hsl] at hx
    · simp at hx
    · simp only [List.mem_singleton] at hx
      subst hx
      simp [isMagicEv]

/-! ### Lemmas about `filter_extension` -/

theorem filter_append (m : String) (e : Option String) (fsc : List (String × List String))
    (l1 l2 : List String) (d : Dict) (ev : List Event) :
    filter_extension m e fsc (l1 ++ l2) d ev =
      match filter_extension m e fsc l1 d ev with
      | .error x => .error x
      | .ok (d2, ev2) => filter_extension m e fsc l2 d2 ev2 := by
  induction l1 generalizing d ev with
  | nil => simp [filter_extension]
  | cons f rest ih =>
    simp only [List.cons_append, filter_extension]
    by_cases hp : passExt e f
    · simp only [if_pos hp]
      rcases hs : search_for_magic fsc f (startLineFor d f) m with _ | ⟨w, evf⟩
      · rfl
      · cases w <;> simp [ih]
    · simp only [if_neg hp]
      exact ih d ev

theorem filter_lookup_not_mem (m : String) (e : Option String)
    (fsc : List (String × List String)) :
    ∀ (l : List String) (d : Dict) (ev : List Event) (f : String), memb f l = false →
      dlookup f (exFold (filter_extension m e fsc l d ev)).1 = dlookup f d ∧
      keyCount f (exFold (filter_extension m e fsc l d ev)).1 = keyCount f d := by
  intro l
  induction l with
  | nil => intro d ev f _; simp [filter_extension, exFold]
  | cons g rest ih =>
    intro d ev f hf
    have hne : g ≠ f := by
      intro hgf
      simp [memb, hgf] at hf
    have hrest : memb f rest = false := by
      simp only [memb, List.any_cons, Bool.or_eq_false_iff] at hf
      exact hf.2
    simp only [filter_extension]
    by_cases hp : passExt e g
    · simp only [if_pos hp]
      rcases hs : search_for_magic fsc g (startLineFor d g) m with _ | ⟨w, evf⟩
      · simp [exFold]
      · cases w with
        | none => exact ih d (ev ++ evf) f hrest
        | some v =>
          have h1 := ih (dictSet d g v) (ev ++ evf) f hrest
          rw [dlookup_dictSet_ne d g f v (Ne.symm hne),
            keyCount_dictSet_ne d g f v (Ne.symm hne)] at h1
          exact h1
    · simp only [if_neg hp]
      exact ih d ev f hrest

theorem filter_mono (m : String) (e : Option String) (fsc : List (String × List String)) :
    ∀ (l : List String) (d : Dict) (ev : List Event) (f : String) (c : Nat),
      dlookup f d = some c →
      ∃ c2, dlookup f (exFold (filter_extension m e fsc l d ev)).1 = some c2 ∧ c ≤ c2 := by
  intro l
  induction l with
  | nil => intro d ev f c h; exact ⟨c, by simpa [filter_extension, exFold], Nat.le_refl c⟩
  | cons g rest ih =>
    intro d ev f c h
    simp only [filter_extension]
    by_cases hp : passExt e g
    · simp only [if_pos hp]
      rcases hs : search_for_magic fsc g (startLineFor d g) m with _ | ⟨w, evf⟩
      · exact ⟨c, by simpa [exFold], Nat.le_refl c⟩
      · cases w with
        | none => exact ih d (ev ++ evf) f c h
        | some v =>
          by_cases hfg : f = g
          · subst hfg
            have hge : startLineFor d f ≤ v :=
              search_for_magic_write_ge fsc f (startLineFor d f) m (some v, evf) hs v rfl
            have hstart : startLineFor d f = c + 1 := by
              simp [startLineFor, h]
            obtain ⟨c2, hc2, hle⟩ :=
              ih (dictSet d f v) (ev ++ evf) f v (dlookup_dictSet_self d f v)
            exact ⟨c2, hc2, by omega⟩
          · obtain ⟨c2, hc2, hle⟩ := ih (dictSet d g v) (ev ++ evf) f c
              (by rw [dlookup_dictSet_ne d g f v hfg]; exact h)
            exact ⟨c2, hc2, hle⟩
    · simp only [if_neg hp]
      exact ih d ev f c h

theorem filter_changed (m : String) (e : Option String) (fsc : List (String × List String)) :
    ∀ (l : List String) (d : Dict) (ev : List Event) (f : String),
      dlookup f (exFold (filter_extension m e fsc l d ev)).1 ≠ dlookup f d →
      memb f l = true ∧ passExt e f = true := by
  intro l
  induction l with
  | nil => intro d ev f h; simp [filter_extension, exFold] at h
  | cons g rest ih =>
    intro d ev f h
    simp only [filter_extension] at h
    by_cases hp : passExt e g
    · rw [if_pos hp] at h
      rcases hs : search_for_magic fsc g (startLineFor d g) m with _ | ⟨w, evf⟩
      · rw [hs] at h; simp [exFold] at h
      · rw [hs] at h
        simp only at h
        by_cases hfg : f = g
        · subst hfg
          exact ⟨(memb_iff f (f :: rest)).mpr (List.mem_cons_self f rest), hp⟩
        · cases w with
          | none =>
            have hr := ih d (ev ++ evf) f h
            exact ⟨(memb_iff f (g :: rest)).mpr
              (List.mem_cons_of_mem g ((memb_iff f rest).mp hr.1)), hr.2⟩
          | some v =>
            have hpre : dlookup f (dictSet d g v) = dlookup f d :=
              dlookup_dictSet_ne d g f v hfg
            have hr := ih (dictSet d g v) (ev ++ evf) f (by rw [hpre]; exact h)
            exact ⟨(memb_iff f (g :: rest)).mpr
              (List.mem_cons_of_mem g ((memb_iff f rest).mp hr.1)), hr.2⟩
    · rw [if_neg hp] at h
      have hr := ih d ev f h
      exact ⟨(memb_iff f (g :: rest)).mpr
        (List.mem_cons_of_mem g ((memb_iff f rest).mp hr.1)), hr.2⟩

theorem filter_ok_iff (m : String) (e : Option String) (fsc : List (String × List String)) :
    ∀ (l : List String) (d : Dict) (ev : List Event),
      exOk (filter_extension m e fsc l d ev) = true ↔
        ∀ f ∈ l, passExt e f = true → (readFile fsc f).isSome := by
  intro l
  induction l with
  | nil => intro d ev; simp [filter_extension, exOk]
  | cons g rest ih =>
    intro d ev
    simp only [filter_extension]
    by_cases hp : passExt e g
    · simp only [if_pos hp]
      rcases hr : readFile fsc g with _ | ls
      · have hs : search_for_magic fsc g (startLineFor d g) m = none :=
          (search_for_magic_none_iff fsc g (startLineFor d g) m).mpr hr
        rw [hs]
        simp only [exOk]
        constructor
        · intro hfalse; exact absurd hfalse (by simp)
        · intro hall
          have := hall g (by simp) hp
          rw [hr] at this
          simp at this
      · have hs := search_for_magic_eq_of_read fsc g (startLineFor d g) m ls hr
        rw [hs]
        constructor
        · intro hok f hf hpf
          rcases List.mem_cons.mp hf with hfg | hfr
          · subst hfg; simp [hr]
          · revert hok
            rcases hw : (search_loop m ("" :: ls) (startLineFor d g)).1 with _ | v <;>
              intro hok <;>
              exact ((ih _ _).mp hok) f hfr hpf
        · intro hall
          rcases hw : (search_loop m ("" :: ls) (startLineFor d g)).1 with _ | v <;>
            exact (ih _ _).mpr (fun f hf hpf => hall f (by simp [hf]) hpf)
    · simp only [if_neg hp]
      constructor
      · intro hok f hf hpf
        rcases List.mem_cons.mp hf with hfg | hfr
        · subst hfg; exact absurd hpf (by simp [hp])
        · exact ((ih d ev).mp hok) f hfr hpf
      · intro hall
        exact (ih d ev).mpr (fun f hf hpf => hall f (by simp [hf]) hpf)

theorem filter_events (m : String) (e : Option String) (fsc : List (String × List String)) :
    ∀ (l : List String) (d : Dict) (ev : List Event),
      ∃ t, (exFold (filter_extension m e fsc l d ev)).2 = ev ++ t ∧
        ∀ x ∈ t, isMagicEv x = true := by
  intro l
  induction l with
  | nil => intro d ev; exact ⟨[], by simp [filter_extension, exFold], by simp⟩
  | cons g rest ih =>
    intro d ev
    simp only [filter_extension]
    by_cases hp : passExt e g
    · simp only [if_pos hp]
      rcases hs : search_for_magic fsc g (startLineFor d g) m with _ | ⟨w, evf⟩
      · exact ⟨[], by simp [exFold], by simp⟩
      · have hmg := search_for_magic_events_magic fsc g (startLineFor d g) m (w, evf) hs
        have key : ∀ d0, ∃ t, (exFold (filter_extension m e fsc rest d0 (ev ++ evf))).2 =
            ev ++ t ∧ ∀ x ∈ t, isMagicEv x = true := by
          intro d0
          obtain ⟨t, ht, hmag⟩ := ih d0 (ev ++ evf)
          refine ⟨evf ++ t, by rw [ht, List.append_assoc], ?_⟩
          intro x hx
          rcases List.mem_append.mp hx with hx | hx
          · exact hmg x hx
          · exact hmag x hx
        cases w with
        | none => exact key d
        | some v => exact key (dictSet d g v)
    · simp only [if_neg hp]
      exact ih d ev

theorem filter_keysND (m : String) (e : Option String) (fsc : List (String × List String)) :
    ∀ (l : List String) (d : Dict) (ev : List Event), keysND d →
      keysND (exFold (filter_extension m e fsc l d ev)).1 := by
  intro l
  induction l with
  | nil => intro d ev h; simpa [filter_extension, exFold]
  | cons g rest ih =>
    intro d ev h
    simp only [filter_extension]
    by_cases hp : passExt e g
    · simp only [if_pos hp]
      rcases hs : search_for_magic fsc g (startLineFor d g) m with _ | ⟨w, evf⟩
      · simpa [exFold]
      · cases w with
        | none => exact ih d (ev ++ evf) h
        | some v => exact ih (dictSet d g v) (ev ++ evf) (keysND_dictSet d g v h)
    · simp only [if_neg hp]
      exact ih d ev h

theorem filter_fresh_tail (m : String) (e : Option String)
    (fsc : List (String × List String)) (l2 : List String) (f : String)
    (da : Dict) (E : List Event) (d2 : Dict) (ev2 : List Event) (v : Nat)
    (h2 : memb f l2 = false)
    (hok : filter_extension m e fsc l2 (dictSet da f v) E = .ok (d2, ev2))
    (hkca : keyCount f da = 0) :
    dlookup f d2 = some v ∧ keyCount f d2 = 1 := by
  have hfin := filter_lookup_not_mem m e fsc l2 (dictSet da f v) E f h2
  rw [hok] at hfin
  simp only [exFold] at hfin
  exact ⟨by rw [hfin.1]; exact dlookup_dictSet_self da f v,
         by rw [hfin.2]; exact keyCount_dictSet_fresh da f v hkca⟩

theorem filter_fresh (m : String) (e : Option String) (fsc : List (String × List String))
    (l1 l2 : List String) (f : String) (d : Dict) (ev : List Event)
    (d2 : Dict) (ev2 : List Event) (ls : List String)
    (h1 : memb f l1 = false) (h2 : memb f l2 = false)
    (hp : passExt e f = true)
    (hread : readFile fsc f = some ls)
    (hd : dlookup f d = none)
    (hok : filter_extension m e fsc (l1 ++ f :: l2) d ev = .ok (d2, ev2)) :
    dlookup f d2 = (search_loop m ("" :: ls) 1).1 ∧
    keyCount f d2 = (if ls = [] then 0 else 1) := by
  rw [filter_append] at hok
  rcases hmid : filter_extension m e fsc l1 d ev with x | ⟨da, eva⟩
  · rw [hmid] at hok; simp at hok
  · rw [hmid] at hok
    have hpre := filter_lookup_not_mem m e fsc l1 d ev f h1
    rw [hmid] at hpre
    simp only [exFold] at hpre
    have hda : dlookup f da = none := by rw [hpre.1]; exact hd
    have hkca : keyCount f da = 0 := by
      rw [hpre.2]; exact (keyCount_zero_iff d f).mpr hd
    have hstart : startLineFor da f = 1 := by simp [startLineFor, hda]
    simp only [filter_extension, hp, if_true, hstart] at hok
    rw [search_for_magic_eq_of_read fsc f 1 m ls hread] at hok
    by_cases hls : ls = []
    · have hnone : search_loop m ("" :: ls) 1 = (none, none) := by
        subst hls; exact search_loop_fst_none m _ 1 (by simp)
      rw [hnone] at hok
      simp only at hok
      have hfin := filter_lookup_not_mem m e fsc l2 da (eva ++ []) f h2
      rw [hok] at hfin
      simp only [exFold] at hfin
      rw [hnone]
      exact ⟨by rw [hfin.1]; exact hda, by rw [hfin.2, hkca, if_pos hls]⟩
    · obtain ⟨v, hv⟩ : ∃ v, (search_loop m ("" :: ls) 1).1 = some v := by
        have hlen : (1 : Nat) < ("" :: ls).length := by
          have := List.length_pos.mpr hls
          simp only [List.length_cons]
          omega
        exact Option.isSome_iff_exists.mp (search_loop_fst_isSome m ("" :: ls) 1 hlen)
      rcases hsnd : (search_loop m ("" :: ls) 1).2 with _ | j <;>
        rw [hv, hsnd] at hok <;> simp only at hok
      · have hres := filter_fresh_tail m e fsc l2 f da _ d2 ev2 v h2 hok hkca
        rw [hv, if_neg hls]
        exact hres
      · have hres := filter_fresh_tail m e fsc l2 f da _ d2 ev2 v h2 hok hkca
        rw [hv, if_neg hls]
        exact hres


/-! ### Lemmas about `detect_removed_files` -/

theorem mem_keys_delKey (f g : String) :
    ∀ (d d2 : Dict), delKey d f = some d2 →
      g ∈ d2.map Prod.fst → g ∈ d.map Prod.fst := by
  intro d
  induction d with
  | nil => intro d2 h; simp [delKey] at h
  | cons e rest ih =>
    rcases e with ⟨k, w⟩
    intro d2 hdel hmem
    by_cases hk : k = f
    · subst hk
      have hd : rest = d2 := by simpa [delKey] using hdel
      subst hd
      simp only [List.map_cons, List.mem_cons]
      exact Or.inr hmem
    · simp only [delKey, if_neg hk] at hdel
      rcases hr : delKey rest f with _ | r
      · rw [hr] at hdel; simp at hdel
      · rw [hr] at hdel
        simp only [Option.map_some', Option.some.injEq] at hdel
        subst hdel
        simp only [List.map_cons, List.mem_cons] at hmem ⊢
        rcases hmem with hmem | hmem
        · exact Or.inl hmem
        · exact Or.inr (ih r hr hmem)

theorem keysND_delKey (f : String) :
    ∀ (d d2 : Dict), delKey d f = some d2 → keysND d → keysND d2 := by
  intro d
  induction d with
  | nil => intro d2 h; simp [delKey] at h
  | cons e rest ih =>
    rcases e with ⟨k, w⟩
    intro d2 hdel hnd
    simp only [keysND, List.map_cons, List.nodup_cons] at hnd
    by_cases hk : k = f
    · subst hk
      have hd : rest = d2 := by simpa [delKey] using hdel
      subst hd
      exact hnd.2
    · simp only [delKey, if_neg hk] at hdel
      rcases hr : delKey rest f with _ | r
      · rw [hr] at hdel; simp at hdel
      · rw [hr] at hdel
        simp only [Option.map_some', Option.some.injEq] at hdel
        subst hdel
        simp only [keysND, List.map_cons, List.nodup_cons]
        exact ⟨fun hmem => hnd.1 (mem_keys_delKey f k rest r hr hmem), ih r hr hnd.2⟩

theorem detect_removed_all_in (files : List String) :
    ∀ (p d : Dict) (ev : List Event),
      (∀ x ∈ p, memb x.1 files = true) →
      detect_removed_files p files d ev = .ok (d, ev) := by
  intro p
  induction p with
  | nil => intro d ev _; simp [detect_removed_files]
  | cons x rest ih =>
    rcases x with ⟨g, w⟩
    intro d ev h
    have hg : memb g files = true := h (g, w) (by simp)
    simp only [detect_removed_files, hg, if_true]
    exact ih d ev (fun y hy => h y (by simp [hy]))

theorem detect_removed_ok (files : List String) :
    ∀ (p d : Dict) (ev : List Event), keysND p →
      (∀ x ∈ p, memb x.1 files = false → (dlookup x.1 d).isSome) →
      exOk (detect_removed_files p files d ev) = true := by
  intro p
  induction p with
  | nil => intro d ev _ _; simp [detect_removed_files, exOk]
  | cons x rest ih =>
    rcases x with ⟨g, w⟩
    intro d ev hnd hin
    simp only [keysND, List.map_cons, List.nodup_cons] at hnd
    simp only [detect_removed_files]
    by_cases hg : memb g files
    · simp only [if_pos hg]
      exact ih d ev hnd.2 (fun y hy hmy => hin y (by simp [hy]) hmy)
    · simp only [if_neg hg]
      have hsome : (dlookup g d).isSome :=
        hin (g, w) (by simp) (by simpa using hg)
      obtain ⟨d2, hd2⟩ := Option.isSome_iff_exists.mp
        ((delKey_isSome_iff d g).mpr hsome)
      rw [hd2]
      apply ih d2 (ev ++ [Event.removedFile g]) hnd.2
      intro y hy hmy
      have hne : y.1 ≠ g := by
        intro hyg
        exact hnd.1 (hyg ▸ List.mem_map_of_mem Prod.fst hy)
      rw [delKey_lookup_ne d g y.1 d2 hd2 hne]
      exact hin y (by simp [hy]) hmy

theorem detect_removed_lookup_in (files : List String) :
    ∀ (p d : Dict) (ev : List Event) (d2 : Dict) (ev2 : List Event),
      detect_removed_files p files d ev = .ok (d2, ev2) →
      ∀ g, memb g files = true →
        dlookup g d2 = dlookup g d ∧ keyCount g d2 = keyCount g d := by
  intro p
  induction p with
  | nil =>
    intro d ev d2 ev2 h g _
    simp only [detect_removed_files, Except.ok.injEq, Prod.mk.injEq] at h
    rw [← h.1]
    exact ⟨rfl, rfl⟩
  | cons x rest ih =>
    rcases x with ⟨f, w⟩
    intro d ev d2 ev2 h g hg
    simp only [detect_removed_files] at h
    by_cases hf : memb f files
    · rw [if_pos hf] at h
      exact ih d ev d2 ev2 h g hg
    · rw [if_neg hf] at h
      rcases hdel : delKey d f with _ | dd
      · rw [hdel] at h; simp at h
      · rw [hdel] at h
        have hne : g ≠ f := by
          intro hgf
          rw [hgf] at hg
          rw [hg] at hf
          exact hf rfl
        have hrec := ih dd (ev ++ [Event.removedFile f]) d2 ev2 h g hg
        rw [delKey_lookup_ne d f g dd hdel hne, delKey_keyCount_ne d f g dd hdel hne] at hrec
        exact hrec

theorem detect_removed_kc_mono (files : List String) :
    ∀ (p d : Dict) (ev : List Event) (d2 : Dict) (ev2 : List Event),
      detect_removed_files p files d ev = .ok (d2, ev2) →
      ∀ g, keyCount g d2 ≤ keyCount g d := by
  intro p
  induction p with
  | nil =>
    intro d ev d2 ev2 h g
    simp only [detect_removed_files, Except.ok.injEq, Prod.mk.injEq] at h
    rw [← h.1]
  | cons x rest ih =>
    rcases x with ⟨f, w⟩
    intro d ev d2 ev2 h g
    simp only [detect_removed_files] at h
    by_cases hf : memb f files
    · rw [if_pos hf] at h
      exact ih d ev d2 ev2 h g
    · rw [if_neg hf] at h
      rcases hdel : delKey d f with _ | dd
      · rw [hdel] at h; simp at h
      · rw [hdel] at h
        have hrec := ih dd (ev ++ [Event.removedFile f]) d2 ev2 h g
        by_cases hgf : g = f
        · subst hgf
          have := delKey_keyCount_self d g dd hdel
          omega
        · rw [delKey_keyCount_ne d f g dd hdel hgf] at hrec
          exact hrec

theorem detect_removed_deletes (files : List String) :
    ∀ (p d : Dict) (ev : List Event) (d2 : Dict) (ev2 : List Event),
      detect_removed_files p files d ev = .ok (d2, ev2) →
      ∀ g w2, (g, w2) ∈ p → memb g files = false → keyCount g d2 + 1 ≤ keyCount g d := by
  intro p
  induction p with
  | nil => intro d ev d2 ev2 h g w2 hmem; simp at hmem
  | cons x rest ih =>
    rcases x with ⟨f, w⟩
    intro d ev d2 ev2 h g w2 hmem hgf
    simp only [detect_removed_files] at h
    by_cases hf : memb f files
    · rw [if_pos hf] at h
      rcases List.mem_cons.mp hmem with hx | hx
      · exfalso
        have hgf2 : g = f := by simpa using congrArg Prod.fst hx
        rw [hgf2] at hgf
        rw [hgf] at hf
        simp at hf
      · exact ih d ev d2 ev2 h g w2 hx hgf
    · rw [if_neg hf] at h
      rcases hdel : delKey d f with _ | dd
      · rw [hdel] at h; simp at h
      · rw [hdel] at h
        by_cases hgf2 : g = f
        · subst hgf2
          have h1 := delKey_keyCount_self d g dd hdel
          have h2 := detect_removed_kc_mono files rest dd
            (ev ++ [Event.removedFile g]) d2 ev2 h g
          omega
        · rcases List.mem_cons.mp hmem with hx | hx
          · exfalso
            exact hgf2 (by simpa using congrArg Prod.fst hx)
          · have hrec := ih dd (ev ++ [Event.removedFile f]) d2 ev2 h g w2 hx hgf
            rw [delKey_keyCount_ne d f g dd hdel hgf2] at hrec
            exact hrec

theorem detect_removed_events (files : List String) :
    ∀ (p d : Dict) (ev : List Event) (d2 : Dict) (ev2 : List Event),
      detect_removed_files p files d ev = .ok (d2, ev2) →
      ev2 = ev ++ (p.filter (fun x => !(memb x.1 files))).map
        (fun x => Event.removedFile x.1) := by
  intro p
  induction p with
  | nil =>
    intro d ev d2 ev2 h
    simp only [detect_removed_files, Except.ok.injEq, Prod.mk.injEq] at h
    simp [← h.2]
  | cons x rest ih =>
    rcases x with ⟨f, w⟩
    intro d ev d2 ev2 h
    simp only [detect_removed_files] at h
    by_cases hf : memb f files
    · rw [if_pos hf] at h
      have hrec := ih d ev d2 ev2 h
      simpa [List.filter_cons, hf] using hrec
    · rw [if_neg hf] at h
      rcases hdel : delKey d f with _ | dd
      · rw [hdel] at h; simp at h
      · rw [hdel] at h
        have hrec := ih dd (ev ++ [Event.removedFile f]) d2 ev2 h
        simp only [List.filter_cons, hf, Bool.not_false, if_pos, List.map_cons]
        rw [hrec, List.append_assoc]
        simp

theorem detect_removed_lookup_some (files : List String) :
    ∀ (p d : Dict) (ev : List Event) (g : String) (v : Nat), keysND d →
      dlookup g (exFold (detect_removed_files p files d ev)).1 = some v →
      dlookup g d = some v := by
  intro p
  induction p with
  | nil => intro d ev g v _ h; simpa [detect_removed_files, exFold] using h
  | cons x rest ih =>
    rcases x with ⟨f, w⟩
    intro d ev g v hnd h
    simp only [detect_removed_files] at h
    by_cases hf : memb f files
    · rw [if_pos hf] at h
      exact ih d ev g v hnd h
    · rw [if_neg hf] at h
      rcases hdel : delKey d f with _ | dd
      · rw [hdel] at h
        simpa [exFold] using h
      · rw [hdel] at h
        have hdd := ih dd (ev ++ [Event.removedFile f]) g v (keysND_delKey f d dd hdel hnd) h
        by_cases hgf : g = f
        · subst hgf
          exfalso
          have h1 := delKey_keyCount_self d g dd hdel
          have h2 := keysND_keyCount_le_one d hnd g
          have h3 : keyCount g dd = 0 := by omega
          rw [(keyCount_zero_iff dd g).mp h3] at hdd
          simp at hdd
        · rw [← delKey_lookup_ne d f g dd hdel hgf]
          exact hdd

/-! ### Lemmas about `detect_added_files` -/

theorem detect_added_events (prev : Dict) :
    ∀ (curr : Dict) (ev : List Event),
      detect_added_files prev curr ev =
        ev ++ (curr.filter (fun x => (dlookup x.1 prev).isNone)).map
          (fun x => Event.addedFile x.1) := by
  intro curr
  induction curr with
  | nil => intro ev; simp [detect_added_files]
  | cons x rest ih =>
    rcases x with ⟨f, w⟩
    intro ev
    simp only [detect_added_files]
    by_cases hf : (dlookup f prev).isNone
    · rw [if_pos hf]
      rw [ih (ev ++ [Event.addedFile f])]
      simp only [List.filter_cons]
      rw [if_pos hf]
      simp
    · rw [if_neg hf]
      rw [ih ev]
      simp only [List.filter_cons]
      rw [if_neg hf]


/-! ### Counting and membership helpers -/

theorem dlookup_mem (f : String) (v : Nat) :
    ∀ d : Dict, dlookup f d = some v → (f, v) ∈ d := by
  intro d
  induction d with
  | nil => intro h; simp [dlookup] at h
  | cons e rest ih =>
    rcases e with ⟨k, w⟩
    intro h
    simp only [dlookup] at h
    by_cases hk : k = f
    · rw [if_pos hk] at h
      simp only [Option.some.injEq] at h
      simp [hk, h]
    · rw [if_neg hk] at h
      exact List.mem_cons_of_mem _ (ih h)

theorem lookup_isSome_of_mem (f : String) (v : Nat) :
    ∀ d : Dict, (f, v) ∈ d → (dlookup f d).isSome := by
  intro d
  induction d with
  | nil => intro h; simp at h
  | cons e rest ih =>
    rcases e with ⟨k, w⟩
    intro h
    simp only [dlookup]
    by_cases hk : k = f
    · simp [hk]
    · rw [if_neg hk]
      rcases List.mem_cons.mp h with hx | hx
      · exfalso
        have hfk : f = k := by simpa using congrArg Prod.fst hx
        exact hk hfk.symm
      · exact ih hx

theorem keyCount_pos_of_lookup (f : String) (v : Nat) (d : Dict)
    (h : dlookup f d = some v) : 1 ≤ keyCount f d := by
  have hmem := dlookup_mem f v d h
  have hpos : 0 < List.countP (fun e => decide (e.1 = f)) d :=
    List.countP_pos_iff.mpr ⟨(f, v), hmem, by simp⟩
  unfold keyCount
  omega

theorem countRemovedFor_map (f : String) (q : List (String × Nat)) :
    countRemovedFor f (q.map (fun x => Event.removedFile x.1)) = keyCount f q := by
  induction q with
  | nil => simp [countRemovedFor, keyCount]
  | cons x rest ih =>
    by_cases hx : x.1 = f <;>
      simp [countRemovedFor, keyCount, List.countP_cons, hx] at ih ⊢ <;>
      omega

theorem countAddedFor_map (f : String) (q : List (String × Nat)) :
    countAddedFor f (q.map (fun x => Event.addedFile x.1)) = keyCount f q := by
  induction q with
  | nil => simp [countAddedFor, keyCount]
  | cons x rest ih =>
    by_cases hx : x.1 = f <;>
      simp [countAddedFor, keyCount, List.countP_cons, hx] at ih ⊢ <;>
      omega

theorem countAddedFor_map_removed (f : String) (q : List (String × Nat)) :
    countAddedFor f (q.map (fun x => Event.removedFile x.1)) = 0 := by
  unfold countAddedFor
  rw [List.countP_eq_zero]
  intro a ha
  rcases List.mem_map.mp ha with ⟨x, _, hx⟩
  subst hx
  simp

theorem countRemovedFor_map_added (f : String) (q : List (String × Nat)) :
    countRemovedFor f (q.map (fun x => Event.addedFile x.1)) = 0 := by
  unfold countRemovedFor
  rw [List.countP_eq_zero]
  intro a ha
  rcases List.mem_map.mp ha with ⟨x, _, hx⟩
  subst hx
  simp

theorem countAddedFor_magic_zero (f : String) (t : List Event)
    (h : ∀ x ∈ t, isMagicEv x = true) : countAddedFor f t = 0 := by
  unfold countAddedFor
  rw [List.countP_eq_zero]
  intro a ha
  have := h a ha
  cases a <;> simp_all [isMagicEv]

theorem countRemovedFor_magic_zero (f : String) (t : List Event)
    (h : ∀ x ∈ t, isMagicEv x = true) : countRemovedFor f t = 0 := by
  unfold countRemovedFor
  rw [List.countP_eq_zero]
  intro a ha
  have := h a ha
  cases a <;> simp_all [isMagicEv]

theorem keyCount_filter_of_true (f : String) (c : String × Nat → Bool)
    (p : Dict) (hc : ∀ x ∈ p, x.1 = f → c x = true) :
    keyCount f (p.filter c) = keyCount f p := by
  induction p with
  | nil => simp
  | cons x rest ih =>
    have hrest := ih (fun y hy hyf => hc y (List.mem_cons_of_mem x hy) hyf)
    rcases hcx : c x with _ | _
    · have hx : x.1 ≠ f := by
        intro hxf
        have hct := hc x (by simp) hxf
        rw [hcx] at hct
        exact Bool.noConfusion hct
      rw [List.filter_cons, if_neg (by simp [hcx])]
      simp only [keyCount, List.countP_cons] at hrest ⊢
      rw [hrest]
      simp [hx]
    · rw [List.filter_cons, if_pos hcx]
      simp only [keyCount, List.countP_cons] at hrest ⊢
      rw [hrest]

theorem nodup_split (l : List String) (a : String) (hnd : l.Nodup) (ha : a ∈ l) :
    ∃ s t, l = s ++ a :: t ∧ memb a s = false ∧ memb a t = false := by
  induction l with
  | nil => simp at ha
  | cons b rest ih =>
    simp only [List.nodup_cons] at hnd
    rcases List.mem_cons.mp ha with hab | har
    · subst hab
      refine ⟨[], rest, by simp, by simp [memb], ?_⟩
      rcases hm : memb a rest with _ | _
      · rfl
      · exact absurd ((memb_iff a rest).mp hm) hnd.1
    · obtain ⟨s, t, hl, hs, ht⟩ := ih hnd.2 har
      refine ⟨b :: s, t, by rw [hl]; simp, ?_, ht⟩
      simp only [memb, List.any_cons, Bool.or_eq_false_iff]
      constructor
      · simp only [decide_eq_false_iff_not]
        intro hba
        rw [hba] at hnd
        exact hnd.1 har
      · simpa [memb] using hs

theorem isMagicEv_not_added (x : Event) (h : isMagicEv x = true) :
    isAddedEv x = false ∧ isRemovedEv x = false := by
  cases x <;> simp_all [isMagicEv, isAddedEv, isRemovedEv]


/-! ### Shape of one loop iteration (`watch_cycle`) per outcome -/

theorem watch_cycle_cfg (p m e : Option String) (i : Nat) (dir : Option FS)
    (st : LoopState) (a : AlertErr) (halert : alert_user p m e = some a) :
    watch_cycle p m e i dir st = ⟨st, [cfgEvent a e], cfgOutcome a⟩ := by
  cases a <;> simp [watch_cycle, halert, cfgEvent, cfgOutcome]

theorem watch_cycle_nodir (p m e : Option String) (i : Nat) (st : LoopState)
    (halert : alert_user p m e = none) :
    watch_cycle p m e i none st =
      ⟨st, [Event.dirNotFound (p.getD ""), Event.slept 5], Outcome.fnf⟩ := by
  simp [watch_cycle, halert]

theorem watch_cycle_fnf_filter (p m e : Option String) (i : Nat) (fs : FS)
    (st : LoopState) (d : Dict) (ev : List Event)
    (halert : alert_user p m e = none)
    (hfil : filter_extension (m.getD "") e fs.content fs.listing st.curr [] =
      .error (d, ev)) :
    watch_cycle p m e i (some fs) st =
      ⟨⟨d, st.prev⟩, ev ++ [Event.dirNotFound (p.getD ""), Event.slept 5], Outcome.fnf⟩ := by
  simp [watch_cycle, halert, hfil]

theorem watch_cycle_other (p m e : Option String) (i : Nat) (fs : FS)
    (st : LoopState) (d : Dict) (ev : List Event) (d2 : Dict) (ev2 : List Event)
    (halert : alert_user p m e = none)
    (hfil : filter_extension (m.getD "") e fs.content fs.listing st.curr [] = .ok (d, ev))
    (hrem : detect_removed_files st.prev fs.listing d ev = .error (d2, ev2)) :
    watch_cycle p m e i (some fs) st =
      ⟨⟨d2, st.prev⟩, ev2 ++ [Event.errUnexpected], Outcome.other⟩ := by
  simp [watch_cycle, halert, hfil, hrem]

theorem watch_cycle_ok (p m e : Option String) (i : Nat) (fs : FS)
    (st : LoopState) (d : Dict) (ev : List Event) (d2 : Dict) (ev2 : List Event)
    (halert : alert_user p m e = none)
    (hfil : filter_extension (m.getD "") e fs.content fs.listing st.curr [] = .ok (d, ev))
    (hrem : detect_removed_files st.prev fs.listing d ev = .ok (d2, ev2)) :
    watch_cycle p m e i (some fs) st =
      ⟨⟨d2, d2⟩,
        detect_added_files st.prev d2 ev2 ++ [Event.debugDict d2, Event.slept i],
        Outcome.ok⟩ := by
  simp [watch_cycle, halert, hfil, hrem]

theorem watch_directory_congr (p m e : Option String) (i : Nat)
    (env env2 : Nat → Option FS) (flag flag2 : Nat → Bool) :
    ∀ (fuel k : Nat) (st : LoopState),
      (∀ j, k ≤ j → env j = env2 j) → (∀ j, k ≤ j → flag j = flag2 j) →
      watch_directory p m e i env flag k fuel st =
        watch_directory p m e i env2 flag2 k fuel st := by
  intro fuel
  induction fuel with
  | zero => intro k st _ _; rfl
  | succ n ih =>
    intro k st henv hflag
    have hf := hflag k (Nat.le_refl k)
    have hv := henv k (Nat.le_refl k)
    have hrec := ih (k + 1) (watch_cycle p m e i (env2 k) st).st
      (fun j hj => henv j (by omega)) (fun j hj => hflag j (by omega))
    simp only [watch_directory, hf, hv, hrec]

/-! ### The claims -/

/-- C6: across one iteration of the polling loop the line count stored for a
tracked path never decreases — if `f` has count `c` before the cycle and
count `c2` after it then `c ≤ c2`, whatever the cycle's outcome — and a path
with no entry (fresh, or removed and later re-added) restarts from the
default count 0: the next scan's start line is `0 + 1`. -/
theorem claim_C6 (p m e : Option String) (i : Nat) (dir : Option FS) (st : LoopState)
    (f : String) (c c2 : Nat)
    (hnd : keysND st.curr)
    (h1 : dlookup f st.curr = some c)
    (h2 : dlookup f (watch_cycle p m e i dir st).st.curr = some c2) :
    c ≤ c2 ∧ ∀ (g : String) (d : Dict), dlookup g d = none → startLineFor d g = 0 + 1 := by
  refine ⟨?_, fun g d hg => by simp [startLineFor, hg]⟩
  rcases halert : alert_user p m e with _ | a
  · rcases dir with _ | fs
    · rw [watch_cycle_nodir p m e i st halert] at h2
      have h2x : dlookup f st.curr = some c2 := h2
      rw [h1] at h2x
      simp only [Option.some.injEq] at h2x
      omega
    · obtain ⟨c3, hc3, hle⟩ := filter_mono (m.getD "") e fs.content fs.listing st.curr [] f c h1
      rcases hfil : filter_extension (m.getD "") e fs.content fs.listing st.curr []
        with ⟨dx, evx⟩ | ⟨d, ev⟩
      · rw [watch_cycle_fnf_filter p m e i fs st dx evx halert hfil] at h2
        have h2x : dlookup f dx = some c2 := h2
        rw [hfil] at hc3
        have hc3x : dlookup f dx = some c3 := hc3
        rw [h2x] at hc3x
        simp only [Option.some.injEq] at hc3x
        omega
      · rw [hfil] at hc3
        have hc3x : dlookup f d = some c3 := hc3
        have hndd : keysND d := by
          have hh := filter_keysND (m.getD "") e fs.content fs.listing st.curr [] hnd
          rw [hfil] at hh
          exact hh
        rcases hrem : detect_removed_files st.prev fs.listing d ev
          with ⟨d2, ev2⟩ | ⟨d2, ev2⟩
        · rw [watch_cycle_other p m e i fs st d ev d2 ev2 halert hfil hrem] at h2
          have h2x : dlookup f d2 = some c2 := h2
          have hd : dlookup f d = some c2 :=
            detect_removed_lookup_some fs.listing st.prev d ev f c2 hndd
              (by rw [hrem]; exact h2x)
          rw [hc3x] at hd
          simp only [Option.some.injEq] at hd
          omega
        · rw [watch_cycle_ok p m e i fs st d ev d2 ev2 halert hfil hrem] at h2
          have h2x : dlookup f d2 = some c2 := h2
          have hd : dlookup f d = some c2 :=
            detect_removed_lookup_some fs.listing st.prev d ev f c2 hndd
              (by rw [hrem]; exact h2x)
          rw [hc3x] at hd
          simp only [Option.some.injEq] at hd
          omega
  · rw [watch_cycle_cfg p m e i dir st a halert] at h2
    have h2x : dlookup f st.curr = some c2 := h2
    rw [h1] at h2x
    simp only [Option.some.injEq] at h2x
    omega

theorem claim_C6_witness :
    (1 : Nat) ≤ 3 ∧ ∀ (g : String) (d : Dict), dlookup g d = none → startLineFor d g = 0 + 1 :=
  claim_C6 (some "d") (some "X") none 1 (some ⟨["a"], [("a", ["x", "y", "z"])]⟩)
    ⟨[("a", 1)], [("a", 1)]⟩ "a" 1 3 (by simp [keysND]) (by decide) (by decide)

/-- C2: if the magic string first occurs (at or after the scan's start line
`s`, taken 1-based) on line `N` of the file, a scan starting at `s ≤ N`
reports the match at exactly line `N`, emitting the match log event exactly
once; the dictionary write `N` makes the next start line `N + 1`, and any
later scan starting after `N` only ever reports matches on lines beyond
`N`. -/
theorem claim_C2 (fsc : List (String × List String)) (f m : String) (ls : List String)
    (s N : Nat)
    (hread : readFile fsc f = some ls)
    (hsN : s ≤ N) (hNlen : N ≤ ls.length)
    (hmatch : strContains m (lineAt ("" :: ls) N) = true)
    (hfirst : ∀ j, j < N → s ≤ j → strContains m (lineAt ("" :: ls) j) = false) :
    search_for_magic fsc f s m = some (some N, [Event.magicFound f m N]) ∧
    (∀ d : Dict, startLineFor (dictSet d f N) f = N + 1) ∧
    (∀ (s2 : Nat) (r : Option Nat × List Event), N < s2 →
      search_for_magic fsc f s2 m = some r →
      ∀ j, Event.magicFound f m j ∈ r.2 → N < j) := by
  have hloop : search_loop m ("" :: ls) s = (some N, some N) :=
    search_loop_first m ("" :: ls) s N hsN
      (by simp only [List.length_cons]; omega) hmatch
      (fun j hj1 hj2 => hfirst j hj2 hj1)
  refine ⟨?_, ?_, ?_⟩
  · rw [search_for_magic_eq_of_read fsc f s m ls hread, hloop]
  · intro d
    simp [startLineFor, dlookup_dictSet_self]
  · intro s2 r hs2 hr j hj
    rw [search_for_magic_eq_of_read fsc f s2 m ls hread] at hr
    simp only [Option.some.injEq] at hr
    subst hr
    rcases hsl : (search_loop m ("" :: ls) s2).2 with _ | j0 <;> rw [hsl] at hj
    · simp at hj
    · simp only [List.mem_singleton, Event.magicFound.injEq] at hj
      have hge := search_loop_snd_ge m ("" :: ls) s2 j0 hsl
      omega

theorem claim_C2_witness :
    search_for_magic [("w.txt", ["a", "the MAGIC line"])] "w.txt" 1 "MAGIC" =
      some (some 2, [Event.magicFound "w.txt" "MAGIC" 2]) ∧
    (∀ d : Dict, startLineFor (dictSet d "w.txt" 2) "w.txt" = 2 + 1) ∧
    (∀ (s2 : Nat) (r : Option Nat × List Event), 2 < s2 →
      search_for_magic [("w.txt", ["a", "the MAGIC line"])] "w.txt" s2 "MAGIC" = some r →
      ∀ j, Event.magicFound "w.txt" "MAGIC" j ∈ r.2 → 2 < j) :=
  claim_C2 [("w.txt", ["a", "the MAGIC line"])] "w.txt" "MAGIC" ["a", "the MAGIC line"]
    1 2 (by decide) (by decide) (by decide) (by decide) (by decide)

/-- C1 (counterexample): a file that vanishes between the listing and the
`open` aborts the whole cycle.  Here `d/a.txt` is listed but unreadable and
`d/b.txt` contains the magic string, yet the cycle ends in the
`FileNotFoundError` arm without scanning `d/b.txt` (no match event is
emitted, no diff runs) — the remaining files are NOT scanned and the cycle
does not complete. -/
theorem claim_C1_counterexample :
    watch_cycle (some "d") (some "MAGIC") none 1
      (some ⟨["d/a.txt", "d/b.txt"], [("d/b.txt", ["has MAGIC inside"])]⟩) ⟨[], []⟩ =
      ⟨⟨[], []⟩, [Event.dirNotFound "d", Event.slept 5], Outcome.fnf⟩ ∧
    strContains "MAGIC" "has MAGIC inside" = true := by
  exact ⟨rfl, rfl⟩

/-- C1 (amended): when reading one file fails mid-cycle, the
`FileNotFoundError` escapes `search_for_magic` and aborts the cycle at that
point: files after the failing one are not scanned, the diff passes do not
run, and the previous-cycle snapshot is not updated; the loop catches the
exception in its directory-not-found arm, logs that error, sleeps 5
seconds, and — since this outcome does not `break` — retries. -/
theorem claim_C1 (p m : String) (e : Option String) (i : Nat) (fs : FS) (st : LoopState)
    (l1 l2 : List String) (f : String) (da : Dict) (eva : List Event)
    (halert : alert_user (some p) (some m) e = none)
    (hlist : fs.listing = l1 ++ f :: l2)
    (hl1 : filter_extension m e fs.content l1 st.curr [] = .ok (da, eva))
    (hp : passExt e f = true)
    (hread : readFile fs.content f = none) :
    watch_cycle (some p) (some m) e i (some fs) st =
      ⟨⟨da, st.prev⟩, eva ++ [Event.dirNotFound p, Event.slept 5], Outcome.fnf⟩ ∧
    breaksLoop Outcome.fnf = false := by
  have hfl : filter_extension m e fs.content fs.listing st.curr [] = .error (da, eva) := by
    rw [hlist, filter_append, hl1]
    simp only [filter_extension, hp, if_true]
    rw [(search_for_magic_none_iff fs.content f (startLineFor da f) m).mpr hread]
  exact ⟨watch_cycle_fnf_filter (some p) (some m) e i fs st da eva halert hfl, rfl⟩

theorem claim_C1_witness :
    watch_cycle (some "d") (some "MAGIC") none 1 (some ⟨["d/x.txt"], []⟩) ⟨[], []⟩ =
      ⟨⟨[], []⟩, [Event.dirNotFound "d", Event.slept 5], Outcome.fnf⟩ ∧
    breaksLoop Outcome.fnf = false :=
  claim_C1 "d" "MAGIC" none 1 ⟨["d/x.txt"], []⟩ ⟨[], []⟩ [] [] "d/x.txt" [] []
    (by decide) rfl rfl (by decide) rfl

/-- C7 (counterexample): with the extension filter `""` — a string that does
not begin with `'.'` — the validation expression `extension[0]` raises
`IndexError`, which is caught by the catch-all arm: the loop terminates
without a retry, but what it logs is the generic unexpected-error line, not
one of the three configuration-error lines. -/
theorem claim_C7_counterexample :
    watch_directory (some "d") (some "X") (some "") 1 (fun _ => some ⟨[], []⟩)
        (fun _ => false) 0 5 ⟨[], []⟩ =
      ⟨⟨[], []⟩, [Event.errUnexpected], 1, StopReason.broke Outcome.other⟩ ∧
    alert_user (some "d") (some "X") (some "") = some AlertErr.indexErr := by
  exact ⟨rfl, rfl⟩

/-- C7 (amended): on a configuration rejected by `alert_user` with one of
the three declared configuration exceptions (missing magic string, missing
directory, or a non-empty extension filter not beginning with `'.'`), the
loop logs the corresponding configuration-error line and `break`s after
that single iteration — no retry cycle runs, whatever the environment and
remaining fuel.  (With an empty extension filter the loop also terminates
without retry, but via the generic unexpected-error arm — see the
counterexample.) -/
theorem claim_C7 (p m e : Option String) (i : Nat) (env : Nat → Option FS)
    (flag : Nat → Bool) (k fuel : Nat) (st : LoopState) (a : AlertErr)
    (hflag : flag k = false)
    (halert : alert_user p m e = some a)
    (ha : a = AlertErr.magicMissing ∨ a = AlertErr.extErr ∨ a = AlertErr.dirMissing) :
    watch_directory p m e i env flag k (fuel + 1) st =
      ⟨st, [cfgEvent a e], 1, StopReason.broke (cfgOutcome a)⟩ ∧
    breaksLoop (cfgOutcome a) = true := by
  have hc := watch_cycle_cfg p m e i (env k) st a halert
  rcases ha with rfl | rfl | rfl <;>
    exact ⟨by simp [watch_directory, hflag, hc, breaksLoop, cfgOutcome], rfl⟩

theorem claim_C7_witness :
    watch_directory (some "d") none none 1 (fun _ => none) (fun _ => false) 0 5 ⟨[], []⟩ =
      ⟨⟨[], []⟩, [Event.errMagicMissing], 1, StopReason.broke Outcome.cMagic⟩ ∧
    breaksLoop Outcome.cMagic = true :=
  claim_C7 (some "d") none none 1 (fun _ => none) (fun _ => false) 0 4 ⟨[], []⟩
    AlertErr.magicMissing rfl (by decide) (Or.inl rfl)

/-- C8: when the watch directory does not exist the iteration logs the
directory error, sleeps the fixed 5-second backoff, leaves the state
untouched and does not `break` (first conjunct); a loop whose directory
never exists keeps retrying for as long as it has fuel — it never
terminates of its own accord (second conjunct); and if the directory
appears after the first iteration, the run is exactly one error-and-backoff
iteration followed by the run that sees the directory from the same,
unchanged state (third conjunct). -/
theorem claim_C8 (p m e : Option String) (i : Nat) (st : LoopState) (fs : FS)
    (halert : alert_user p m e = none) :
    (watch_cycle p m e i none st =
        ⟨st, [Event.dirNotFound (p.getD ""), Event.slept 5], Outcome.fnf⟩ ∧
      breaksLoop Outcome.fnf = false) ∧
    (∀ fuel k, watch_directory p m e i (fun _ => none) (fun _ => false) k fuel st =
        ⟨st, (List.replicate fuel [Event.dirNotFound (p.getD ""), Event.slept 5]).join,
          fuel, StopReason.fuelOut⟩) ∧
    (∀ fuel, watch_directory p m e i (fun k => if k = 0 then none else some fs)
        (fun _ => false) 0 (fuel + 1) st =
      ⟨(watch_directory p m e i (fun _ => some fs) (fun _ => false) 1 fuel st).st,
        [Event.dirNotFound (p.getD ""), Event.slept 5] ++
          (watch_directory p m e i (fun _ => some fs) (fun _ => false) 1 fuel st).events,
        (watch_directory p m e i (fun _ => some fs) (fun _ => false) 1 fuel st).cycles + 1,
        (watch_directory p m e i (fun _ => some fs) (fun _ => false) 1 fuel st).reason⟩) := by
  have hnodir := watch_cycle_nodir p m e i st halert
  refine ⟨⟨hnodir, rfl⟩, ?_, ?_⟩
  · intro fuel
    induction fuel with
    | zero => intro k; simp [watch_directory]
    | succ n ih =>
      intro k
      simp only [watch_directory, hnodir, breaksLoop, ih (k + 1), List.replicate_succ,
        List.join_cons]
      simp
  · intro fuel
    have hcongr := watch_directory_congr p m e i
      (fun k => if k = 0 then none else some fs) (fun _ => some fs)
      (fun _ => false) (fun _ => false) fuel 1
      (watch_cycle p m e i none st).st
      (fun j hj => by simp only []; rw [if_neg (by omega)])
      (fun j hj => rfl)
    rw [hnodir] at hcongr
    simp only at hcongr
    simp [watch_directory, hnodir, breaksLoop, hcongr]

theorem claim_C8_witness :
    watch_directory (some "d") (some "X") none 1 (fun _ => none) (fun _ => false)
        0 3 ⟨[], []⟩ =
      ⟨⟨[], []⟩, (List.replicate 3 [Event.dirNotFound "d", Event.slept 5]).join, 3,
        StopReason.fuelOut⟩ :=
  (claim_C8 (some "d") (some "X") none 1 ⟨[], []⟩ ⟨[], []⟩ (by decide)).2.1 3 0

/-- C10: cancellation is observed only at the head of the loop — if the
flag reads true there, the loop stops at once with no cycle run (first
conjunct); if the flag reads false at iteration `k` and true at `k + 1`
(set during cycle `k`), the cycle at `k` still runs to completion — its
full state update and event list are produced — and no further cycle
begins (second conjunct); and `signal_handler`'s effect on the flag is
idempotent: delivering the signal again changes nothing (third
conjunct). -/
theorem claim_C10 (p m e : Option String) (i : Nat) (env : Nat → Option FS)
    (st : LoopState) (k fuel : Nat) :
    (∀ flag : Nat → Bool, flag k = true →
      watch_directory p m e i env flag k (fuel + 1) st =
        ⟨st, [], 0, StopReason.cancelled⟩) ∧
    (∀ flag : Nat → Bool, flag k = false → flag (k + 1) = true →
      breaksLoop (watch_cycle p m e i (env k) st).outcome = false →
      watch_directory p m e i env flag k (fuel + 2) st =
        ⟨(watch_cycle p m e i (env k) st).st, (watch_cycle p m e i (env k) st).events, 1,
          StopReason.cancelled⟩) ∧
    (∀ b : Bool, signal_handler (signal_handler b) = signal_handler b ∧
      signal_handler b = true) := by
  refine ⟨?_, ?_, fun b => ⟨rfl, rfl⟩⟩
  · intro flag hf
    simp [watch_directory, hf]
  · intro flag hf0 hf1 hb
    simp [watch_directory, hf0, hf1, hb]

theorem claim_C10_witness :
    watch_directory (some "d") (some "X") none 1 (fun _ => some ⟨[], []⟩)
        (fun j => decide (1 ≤ j)) 0 2 ⟨[], []⟩ =
      ⟨(watch_cycle (some "d") (some "X") none 1 (some ⟨[], []⟩) ⟨[], []⟩).st,
        (watch_cycle (some "d") (some "X") none 1 (some ⟨[], []⟩) ⟨[], []⟩).events, 1,
        StopReason.cancelled⟩ :=
  (claim_C10 (some "d") (some "X") none 1 (fun _ => some ⟨[], []⟩) ⟨[], []⟩ 0 0).2.1
    (fun j => decide (1 ≤ j)) (by decide) (by decide) (by decide)

/-- C3 (counterexample): an empty file added to the watched directory passes
the (absent) extension filter and is scanned in the cycle that first sees
it, but the scan loop body never runs (`range(1, 1)` is empty), so the file
never enters `curr_dir_dict` and NO addition event is logged in that cycle,
although the cycle completes normally. -/
theorem claim_C3_counterexample :
    (watch_cycle (some "d") (some "X") none 1
        (some ⟨["d/new.txt"], [("d/new.txt", [])]⟩) ⟨[], []⟩).outcome = Outcome.ok ∧
    passExt none "d/new.txt" = true ∧
    countAddedFor "d/new.txt"
      (watch_cycle (some "d") (some "X") none 1
        (some ⟨["d/new.txt"], [("d/new.txt", [])]⟩) ⟨[], []⟩).events = 0 := by
  exact ⟨rfl, rfl, rfl⟩

/-- C3 (amended): for a file added between cycles that passes the extension
filter AND has at least one line, exactly one addition event is logged in
the cycle that first observes it, its watch-state count starts from the
default 0 (so its first scan starts at line `0 + 1`), and it is tracked in
the watch state afterwards.  (An added EMPTY file is scanned but never
enters the watch state, so its addition event is deferred until it first
has content — see the counterexample.) -/
theorem claim_C3 (p m e : Option String) (i : Nat) (fs : FS) (st : LoopState)
    (l1 l2 : List String) (f : String) (ls : List String)
    (halert : alert_user p m e = none)
    (hlist : fs.listing = l1 ++ f :: l2)
    (hf1 : memb f l1 = false) (hf2 : memb f l2 = false)
    (hp : passExt e f = true)
    (hread : readFile fs.content f = some ls)
    (hne : ls ≠ [])
    (hcur : dlookup f st.curr = none)
    (hprev : dlookup f st.prev = none)
    (hout : (watch_cycle p m e i (some fs) st).outcome = Outcome.ok) :
    countAddedFor f (watch_cycle p m e i (some fs) st).events = 1 ∧
    startLineFor st.curr f = 0 + 1 ∧
    (dlookup f (watch_cycle p m e i (some fs) st).st.curr).isSome := by
  rcases hfil : filter_extension (m.getD "") e fs.content fs.listing st.curr []
      with ⟨dx, evx⟩ | ⟨d, ev⟩
  · rw [watch_cycle_fnf_filter p m e i fs st dx evx halert hfil] at hout
    simp at hout
  · rcases hrem : detect_removed_files st.prev fs.listing d ev with ⟨d2, ev2⟩ | ⟨d2, ev2⟩
    · rw [watch_cycle_other p m e i fs st d ev d2 ev2 halert hfil hrem] at hout
      simp at hout
    · have hshape := watch_cycle_ok p m e i fs st d ev d2 ev2 halert hfil hrem
      have hfresh := filter_fresh (m.getD "") e fs.content l1 l2 f st.curr [] d ev ls
        hf1 hf2 hp hread hcur (by rw [← hlist]; exact hfil)
      have hlen : (1 : Nat) < ("" :: ls).length := by
        have := List.length_pos.mpr hne
        simp only [List.length_cons]
        omega
      have hsome : (dlookup f d).isSome := by
        rw [hfresh.1]
        exact search_loop_fst_isSome (m.getD "") ("" :: ls) 1 hlen
      have hkc : keyCount f d = 1 := by rw [hfresh.2, if_neg hne]
      have hmemb : memb f fs.listing = true :=
        (memb_iff f fs.listing).mpr
          (by rw [hlist]; exact List.mem_append_right l1 (List.mem_cons_self f l2))
      have hpres := detect_removed_lookup_in fs.listing st.prev d ev d2 ev2 hrem f hmemb
      simp only [hshape]
      refine ⟨?_, by simp [startLineFor, hcur], by rw [hpres.1]; exact hsome⟩
      obtain ⟨t, ht, hmag⟩ := filter_events (m.getD "") e fs.content fs.listing st.curr []
      rw [hfil] at ht
      have hev : ev = t := by simpa using ht
      have hc1 : countAddedFor f ev = 0 := by
        rw [hev]
        exact countAddedFor_magic_zero f t hmag
      have hre := detect_removed_events fs.listing st.prev d ev d2 ev2 hrem
      have hc2 : countAddedFor f ev2 = 0 := by
        rw [hre]
        unfold countAddedFor at hc1 ⊢
        rw [List.countP_append]
        have hmap := countAddedFor_map_removed f
          (st.prev.filter (fun x => !(memb x.1 fs.listing)))
        unfold countAddedFor at hmap
        omega
      have hc3 : countAddedFor f
          ((d2.filter (fun x => (dlookup x.1 st.prev).isNone)).map
            (fun x => Event.addedFile x.1)) = 1 := by
        rw [countAddedFor_map]
        rw [keyCount_filter_of_true f _ d2 (fun x hx hxf => by simp [hxf, hprev])]
        rw [hpres.2, hkc]
      rw [detect_added_events st.prev d2 ev2]
      unfold countAddedFor at hc2 hc3 ⊢
      rw [List.countP_append, List.countP_append]
      rw [hc2, hc3]
      simp

theorem claim_C3_witness :
    countAddedFor "n.txt"
      (watch_cycle (some "d") (some "X") none 1
        (some ⟨["n.txt"], [("n.txt", ["line1"])]⟩) ⟨[], []⟩).events = 1 ∧
    startLineFor [] "n.txt" = 0 + 1 ∧
    (dlookup "n.txt"
      (watch_cycle (some "d") (some "X") none 1
        (some ⟨["n.txt"], [("n.txt", ["line1"])]⟩) ⟨[], []⟩).st.curr).isSome :=
  claim_C3 (some "d") (some "X") none 1 ⟨["n.txt"], [("n.txt", ["line1"])]⟩ ⟨[], []⟩
    [] [] "n.txt" ["line1"] (by decide) rfl rfl rfl (by decide) rfl (by decide)
    rfl rfl (by decide)

/-- C4: for a file tracked in the watch state (it has an entry, carried over
in the previous snapshot) that is no longer in the directory listing, the
cycle that observes the removal completes, deletes the entry from the
current watch state, copies that state into the comparison snapshot for the
next cycle (so the entry is gone from both), and logs exactly one removal
event for the file. -/
theorem claim_C4 (p m e : Option String) (i : Nat) (fs : FS) (st : LoopState)
    (f : String) (c : Nat) (d : Dict) (ev : List Event)
    (halert : alert_user p m e = none)
    (hprevf : dlookup f st.prev = some c)
    (hndp : keysND st.prev)
    (hgone : memb f fs.listing = false)
    (hkc : keyCount f st.curr = 1)
    (hsub : ∀ x ∈ st.prev, (dlookup x.1 st.curr).isSome)
    (hfil : filter_extension (m.getD "") e fs.content fs.listing st.curr [] = .ok (d, ev)) :
    (watch_cycle p m e i (some fs) st).outcome = Outcome.ok ∧
    dlookup f (watch_cycle p m e i (some fs) st).st.curr = none ∧
    dlookup f (watch_cycle p m e i (some fs) st).st.prev = none ∧
    countRemovedFor f (watch_cycle p m e i (some fs) st).events = 1 := by
  have hentries : ∀ x ∈ st.prev, memb x.1 fs.listing = false → (dlookup x.1 d).isSome := by
    intro x hx _
    obtain ⟨cx, hcx⟩ := Option.isSome_iff_exists.mp (hsub x hx)
    obtain ⟨c2x, hc2x, _⟩ :=
      filter_mono (m.getD "") e fs.content fs.listing st.curr [] x.1 cx hcx
    rw [hfil] at hc2x
    have hc2y : dlookup x.1 d = some c2x := hc2x
    simp [hc2y]
  have hok := detect_removed_ok fs.listing st.prev d ev hndp hentries
  rcases hrem : detect_removed_files st.prev fs.listing d ev with ⟨d2, ev2⟩ | ⟨d2, ev2⟩
  · rw [hrem] at hok
    simp [exOk] at hok
  · have hshape := watch_cycle_ok p m e i fs st d ev d2 ev2 halert hfil hrem
    have hnm := filter_lookup_not_mem (m.getD "") e fs.content fs.listing st.curr [] f hgone
    rw [hfil] at hnm
    have hnm1 : keyCount f d = keyCount f st.curr := hnm.2
    have hdel := detect_removed_deletes fs.listing st.prev d ev d2 ev2 hrem f c
      (dlookup_mem f c st.prev hprevf) hgone
    have hkc2 : keyCount f d2 = 0 := by omega
    have hnone : dlookup f d2 = none := (keyCount_zero_iff d2 f).mp hkc2
    simp only [hshape]
    refine ⟨trivial, hnone, hnone, ?_⟩
    obtain ⟨t, ht, hmag⟩ := filter_events (m.getD "") e fs.content fs.listing st.curr []
    rw [hfil] at ht
    have hev : ev = t := by simpa using ht
    have hc1 : countRemovedFor f ev = 0 := by
      rw [hev]
      exact countRemovedFor_magic_zero f t hmag
    have hprevkc : keyCount f st.prev = 1 := by
      have hle := keysND_keyCount_le_one st.prev hndp f
      have hge := keyCount_pos_of_lookup f c st.prev hprevf
      omega
    have hc2 : countRemovedFor f ev2 = 1 := by
      rw [detect_removed_events fs.listing st.prev d ev d2 ev2 hrem]
      unfold countRemovedFor at hc1 ⊢
      rw [List.countP_append]
      have hmap := countRemovedFor_map f (st.prev.filter (fun x => !(memb x.1 fs.listing)))
      rw [keyCount_filter_of_true f _ st.prev
        (fun x hx hxf => by simp [hxf, hgone])] at hmap
      unfold countRemovedFor at hmap
      rw [hmap, hprevkc]
      omega
    rw [detect_added_events st.prev d2 ev2]
    unfold countRemovedFor at hc2 ⊢
    rw [List.countP_append, List.countP_append]
    rw [hc2]
    have hmap2 := countRemovedFor_map_added f
      (d2.filter (fun x => (dlookup x.1 st.prev).isNone))
    unfold countRemovedFor at hmap2
    rw [hmap2]
    simp

theorem claim_C4_witness :
    (watch_cycle (some "d") (some "X") none 1 (some ⟨[], []⟩)
      ⟨[("g.txt", 2)], [("g.txt", 2)]⟩).outcome = Outcome.ok ∧
    dlookup "g.txt" (watch_cycle (some "d") (some "X") none 1 (some ⟨[], []⟩)
      ⟨[("g.txt", 2)], [("g.txt", 2)]⟩).st.curr = none ∧
    dlookup "g.txt" (watch_cycle (some "d") (some "X") none 1 (some ⟨[], []⟩)
      ⟨[("g.txt", 2)], [("g.txt", 2)]⟩).st.prev = none ∧
    countRemovedFor "g.txt" (watch_cycle (some "d") (some "X") none 1 (some ⟨[], []⟩)
      ⟨[("g.txt", 2)], [("g.txt", 2)]⟩).events = 1 :=
  claim_C4 (some "d") (some "X") none 1 ⟨[], []⟩ ⟨[("g.txt", 2)], [("g.txt", 2)]⟩
    "g.txt" 2 [("g.txt", 2)] [] (by decide) rfl (by simp [keysND]) rfl (by decide)
    (by decide) rfl

/-- C5: starting at a cycle boundary (the snapshot equals the watch state,
as the loop itself guarantees after every completed cycle) with a
duplicate-free dictionary, running the cycle twice over an unchanged
directory makes the second cycle complete with no addition and no removal
events. -/
theorem claim_C5 (p m e : Option String) (i : Nat) (fs : FS) (st : LoopState)
    (halert : alert_user p m e = none)
    (hndl : fs.listing.Nodup)
    (heq : st.prev = st.curr)
    (hnd : keysND st.curr)
    (hout1 : (watch_cycle p m e i (some fs) st).outcome = Outcome.ok) :
    (watch_cycle p m e i (some fs) (watch_cycle p m e i (some fs) st).st).outcome =
      Outcome.ok ∧
    List.countP isAddedEv
      (watch_cycle p m e i (some fs) (watch_cycle p m e i (some fs) st).st).events = 0 ∧
    List.countP isRemovedEv
      (watch_cycle p m e i (some fs) (watch_cycle p m e i (some fs) st).st).events = 0 := by
  rcases hfil1 : filter_extension (m.getD "") e fs.content fs.listing st.curr []
      with ⟨dx, evx⟩ | ⟨d1, ev1⟩
  · rw [watch_cycle_fnf_filter p m e i fs st dx evx halert hfil1] at hout1
    simp at hout1
  · rcases hrem1 : detect_removed_files st.prev fs.listing d1 ev1
        with ⟨dy, evy⟩ | ⟨d1p, ev1p⟩
    · rw [watch_cycle_other p m e i fs st d1 ev1 dy evy halert hfil1 hrem1] at hout1
      simp at hout1
    · have hshape1 := watch_cycle_ok p m e i fs st d1 ev1 d1p ev1p halert hfil1 hrem1
      have hreadable : ∀ g ∈ fs.listing, passExt e g = true →
          (readFile fs.content g).isSome := by
        have hiff := filter_ok_iff (m.getD "") e fs.content fs.listing st.curr []
        exact hiff.mp (by rw [hfil1]; rfl)
      have hlook_in : ∀ g v, dlookup g d1p = some v → memb g fs.listing = true := by
        intro g v hv
        rcases hmg : memb g fs.listing with _ | _
        · exfalso
          have hnm := filter_lookup_not_mem (m.getD "") e fs.content fs.listing
            st.curr [] g hmg
          rw [hfil1] at hnm
          have hnm2 : keyCount g d1 = keyCount g st.curr := hnm.2
          rcases hsp : dlookup g st.prev with _ | w
          · rw [heq] at hsp
            have hz : keyCount g st.curr = 0 := (keyCount_zero_iff st.curr g).mpr hsp
            have hmono := detect_removed_kc_mono fs.listing st.prev d1 ev1 d1p ev1p hrem1 g
            have hzz : keyCount g d1p = 0 := by omega
            rw [(keyCount_zero_iff d1p g).mp hzz] at hv
            exact Option.noConfusion hv
          · have hdel := detect_removed_deletes fs.listing st.prev d1 ev1 d1p ev1p hrem1
              g w (dlookup_mem g w st.prev hsp) hmg
            have hle : keyCount g st.curr ≤ 1 := keysND_keyCount_le_one st.curr hnd g
            have hzz : keyCount g d1p = 0 := by omega
            rw [(keyCount_zero_iff d1p g).mp hzz] at hv
            exact Option.noConfusion hv
        · rfl
      have hfil2ok : exOk (filter_extension (m.getD "") e fs.content fs.listing d1p []) =
          true :=
        (filter_ok_iff (m.getD "") e fs.content fs.listing d1p []).mpr hreadable
      rcases hfil2 : filter_extension (m.getD "") e fs.content fs.listing d1p []
          with ⟨dz, evz⟩ | ⟨d2, ev2⟩
      · rw [hfil2] at hfil2ok
        simp [exOk] at hfil2ok
      · have hall_in : ∀ x ∈ d1p, memb x.1 fs.listing = true := by
          intro x hx
          obtain ⟨v, hv⟩ := Option.isSome_iff_exists.mp
            (lookup_isSome_of_mem x.1 x.2 d1p (by simpa using hx))
          exact hlook_in x.1 v hv
        have hrem2 := detect_removed_all_in fs.listing d1p d2 ev2 hall_in
        have hmain : ∀ x ∈ d2, (dlookup x.1 d1p).isSome := by
          intro x hx
          have hg2 : (dlookup x.1 d2).isSome :=
            lookup_isSome_of_mem x.1 x.2 d2 (by simpa using hx)
          by_contra hns
          have hnone2 : dlookup x.1 d1p = none := Option.not_isSome_iff_eq_none.mp hns
          obtain ⟨v0, hv0⟩ := Option.isSome_iff_exists.mp hg2
          have hchanged := filter_changed (m.getD "") e fs.content fs.listing d1p [] x.1
            (by
              rw [hfil2]
              have hl : dlookup x.1 (exFold (Except.ok (d2, ev2) :
                  Except (Dict × List Event) (Dict × List Event))).1 =
                  dlookup x.1 d2 := rfl
              rw [hl, hnone2, hv0]
              simp)
          obtain ⟨s, t, hsplit, hms, hmt⟩ :=
            nodup_split fs.listing x.1 hndl ((memb_iff x.1 fs.listing).mp hchanged.1)
          obtain ⟨ls, hls⟩ := Option.isSome_iff_exists.mp
            (hreadable x.1 ((memb_iff x.1 fs.listing).mp hchanged.1) hchanged.2)
          have hcur1 : dlookup x.1 st.curr = none := by
            rcases hsc : dlookup x.1 st.curr with _ | w
            · rfl
            · exfalso
              obtain ⟨c2, hc2, _⟩ := filter_mono (m.getD "") e fs.content fs.listing
                st.curr [] x.1 w hsc
              rw [hfil1] at hc2
              have hc2x : dlookup x.1 d1 = some c2 := hc2
              have hpres := detect_removed_lookup_in fs.listing st.prev d1 ev1 d1p ev1p
                hrem1 x.1 hchanged.1
              rw [hpres.1, hc2x] at hnone2
              exact Option.noConfusion hnone2
          have hfresh1 := filter_fresh (m.getD "") e fs.content s t x.1 st.curr [] d1 ev1
            ls hms hmt hchanged.2 hls hcur1 (by rw [← hsplit]; exact hfil1)
          by_cases hls0 : ls = []
          · have hfresh2 := filter_fresh (m.getD "") e fs.content s t x.1 d1p [] d2 ev2
              ls hms hmt hchanged.2 hls hnone2 (by rw [← hsplit]; exact hfil2)
            have hz : search_loop (m.getD "") ("" :: ls) 1 = (none, none) := by
              subst hls0
              exact search_loop_fst_none (m.getD "") _ 1 (by simp)
            rw [hfresh2.1, hz] at hv0
            exact Option.noConfusion hv0
          · have hlen : (1 : Nat) < ("" :: ls).length := by
              have := List.length_pos.mpr hls0
              simp only [List.length_cons]
              omega
            have hsome1 : (dlookup x.1 d1).isSome := by
              rw [hfresh1.1]
              exact search_loop_fst_isSome (m.getD "") ("" :: ls) 1 hlen
            obtain ⟨v, hv⟩ := Option.isSome_iff_exists.mp hsome1
            have hpres := detect_removed_lookup_in fs.listing st.prev d1 ev1 d1p ev1p
              hrem1 x.1 hchanged.1
            rw [hpres.1, hv] at hnone2
            exact Option.noConfusion hnone2
        have hshape2 := watch_cycle_ok p m e i fs ⟨d1p, d1p⟩ d2 ev2 d2 ev2 halert
          hfil2 hrem2
        obtain ⟨t2, ht2, hmag2⟩ := filter_events (m.getD "") e fs.content fs.listing d1p []
        rw [hfil2] at ht2
        have hev2 : ev2 = t2 := by simpa using ht2
        have hfilnil : d2.filter (fun x => (dlookup x.1 d1p).isNone) = [] := by
          rw [List.filter_eq_nil]
          intro a ha
          have hs := hmain a ha
          rw [Option.isSome_iff_ne_none] at hs
          simpa [Option.isNone_iff_eq_none] using hs
        have hadd : detect_added_files d1p d2 ev2 = ev2 := by
          rw [detect_added_events d1p d2 ev2, hfilnil]
          simp
        refine ⟨by simp [hshape1, hshape2], ?_, ?_⟩
        · simp only [hshape1, hshape2]
          rw [hadd, hev2, List.countP_append]
          have hz1 : List.countP isAddedEv t2 = 0 :=
            List.countP_eq_zero.mpr
              (fun a ha => by simp [(isMagicEv_not_added a (hmag2 a ha)).1])
          rw [hz1]
          simp [isAddedEv]
        · simp only [hshape1, hshape2]
          rw [hadd, hev2, List.countP_append]
          have hz1 : List.countP isRemovedEv t2 = 0 :=
            List.countP_eq_zero.mpr
              (fun a ha => by simp [(isMagicEv_not_added a (hmag2 a ha)).2])
          rw [hz1]
          simp [isRemovedEv]

theorem claim_C5_witness :
    (watch_cycle (some "d") (some "X") none 1
      (some ⟨["f.txt"], [("f.txt", ["hello"])]⟩)
      (watch_cycle (some "d") (some "X") none 1
        (some ⟨["f.txt"], [("f.txt", ["hello"])]⟩) ⟨[], []⟩).st).outcome = Outcome.ok ∧
    List.countP isAddedEv
      (watch_cycle (some "d") (some "X") none 1
        (some ⟨["f.txt"], [("f.txt", ["hello"])]⟩)
        (watch_cycle (some "d") (some "X") none 1
          (some ⟨["f.txt"], [("f.txt", ["hello"])]⟩) ⟨[], []⟩).st).events = 0 ∧
    List.countP isRemovedEv
      (watch_cycle (some "d") (some "X") none 1
        (some ⟨["f.txt"], [("f.txt", ["hello"])]⟩)
        (watch_cycle (some "d") (some "X") none 1
          (some ⟨["f.txt"], [("f.txt", ["hello"])]⟩) ⟨[], []⟩).st).events = 0 :=
  claim_C5 (some "d") (some "X") none 1 ⟨["f.txt"], [("f.txt", ["hello"])]⟩ ⟨[], []⟩
    (by decide) (by decide) rfl (by simp [keysND]) (by decide)
